import Mathlib

set_option maxRecDepth 8000
set_option maxHeartbeats 1000000

/-!
Verification of the product catalog and search engine of `app/scraper.py`
(myryba.ru Tilda-store scraper with Russian-stemmed product search).

Python strings are modelled as `List Char`. Python's `str.lower` is modelled
on the alphabets the catalog uses (ASCII and Cyrillic); `str.split`/`str.strip`
use the core whitespace characters. The external `snowballstemmer` Russian
stemmer is modelled by a faithful implementation of the Snowball Russian
stemming algorithm. The PostgreSQL layer and the HTTP fetching are external
collaborators: the pure cores of `full_scrape` / `refresh_prices` are modelled
as functions of the fetched raw records (one entry per category slug, listing
the raw records of all its discovered `(storepart, recid)` pairs in order).
-/

/-- Python strings, modelled as lists of unicode characters. -/
abbrev Str := List Char

/-- Core whitespace characters recognised by Python `str.split()` / `str.strip()`. -/
def isWs (c : Char) : Bool :=
  c = ' ' || c = '\t' || c = '\n' || c = '\r'

/-- Case-folding table for Python `str.lower()`, restricted to the ASCII and
Cyrillic alphabets the catalog text uses. -/
def lowerTable : List (Char × Char) :=
  [
   ('A', 'a'), ('B', 'b'), ('C', 'c'), ('D', 'd'), ('E', 'e'), ('F', 'f'),
   ('G', 'g'), ('H', 'h'), ('I', 'i'), ('J', 'j'), ('K', 'k'), ('L', 'l'),
   ('M', 'm'), ('N', 'n'), ('O', 'o'), ('P', 'p'), ('Q', 'q'), ('R', 'r'),
   ('S', 's'), ('T', 't'), ('U', 'u'), ('V', 'v'), ('W', 'w'), ('X', 'x'),
   ('Y', 'y'), ('Z', 'z'), ('А', 'а'), ('Б', 'б'), ('В', 'в'), ('Г', 'г'),
   ('Д', 'д'), ('Е', 'е'), ('Ж', 'ж'), ('З', 'з'), ('И', 'и'), ('Й', 'й'),
   ('К', 'к'), ('Л', 'л'), ('М', 'м'), ('Н', 'н'), ('О', 'о'), ('П', 'п'),
   ('Р', 'р'), ('С', 'с'), ('Т', 'т'), ('У', 'у'), ('Ф', 'ф'), ('Х', 'х'),
   ('Ц', 'ц'), ('Ч', 'ч'), ('Ш', 'ш'), ('Щ', 'щ'), ('Ъ', 'ъ'), ('Ы', 'ы'),
   ('Ь', 'ь'), ('Э', 'э'), ('Ю', 'ю'), ('Я', 'я'), ('Ё', 'ё')]

/-- Python `str.lower()`: table lookup; characters without a table entry are
returned unchanged. -/
def pyLower (c : Char) : Char :=
  ((lowerTable.find? (fun e => decide (e.1 = c))).map Prod.snd).getD c

/-- Python `str.replace("ё", "е")` applied characterwise. -/
def yoFold (c : Char) : Char :=
  if c = 'ё' then 'е' else c

/-- Model of `ProductCatalog._normalize`: `text.lower().replace("ё", "е")`. -/
def normalizeText (t : Str) : Str :=
  (t.map pyLower).map yoFold

/-- Characters matched by `\w` in `ProductCatalog._RE_PUNCT` (`[^\w\-]`,
`re.UNICODE`), restricted to the alphabets the catalog uses: ASCII letters and
digits, underscore, and Cyrillic letters. -/
def isWordChar (c : Char) : Bool :=
  ('a' ≤ c && c ≤ 'z') || ('A' ≤ c && c ≤ 'Z') || ('0' ≤ c && c ≤ '9') ||
  c = '_' || ('а' ≤ c && c ≤ 'я') || ('А' ≤ c && c ≤ 'Я') || c = 'ё' || c = 'Ё'

/-- Model of `ProductCatalog._RE_PUNCT.sub(" ", ·)`: every character that is
not a word character or a hyphen is replaced by a single space. -/
def rePunctSub (l : Str) : Str :=
  l.map (fun c => if isWordChar c || c = '-' then c else ' ')

/-- Accumulator-based worker for Python `str.split()` (split on whitespace
runs, dropping empty tokens); `acc` holds the current token reversed. -/
def splitAux : Str → Str → List Str
  | [], acc => if acc = [] then [] else [acc.reverse]
  | c :: rest, acc =>
    if isWs c then
      if acc = [] then splitAux rest [] else acc.reverse :: splitAux rest []
    else splitAux rest (c :: acc)

/-- Python `str.split()` with no separator argument. -/
def pySplit (l : Str) : List Str := splitAux l []

/-- Python `" ".join(ts)`. -/
def joinSpace : List Str → Str
  | [] => []
  | [t] => t
  | t :: ts => t ++ ' ' :: joinSpace ts

/-- Python `str.strip()`: remove leading and trailing whitespace. -/
def pyStrip (l : Str) : Str :=
  (((l.dropWhile isWs).reverse).dropWhile isWs).reverse

/-- Russian Snowball vowels. -/
def ruVowel (c : Char) : Bool :=
  c = 'а' || c = 'е' || c = 'и' || c = 'о' || c = 'у' || c = 'ы' || c = 'э' ||
  c = 'ю' || c = 'я'

/-- Snowball `mark_regions`, `pV` part: the position just after the first
vowel (the word length when there is none). -/
def pVOf (w : Str) : Nat :=
  match w.findIdx? ruVowel with
  | none => w.length
  | some i => i + 1

/-- Snowball `mark_regions`, `p2` part: the position just after the first
non-vowel that follows the second vowel group (the word length when that mark
is not reached). -/
def p2Of (w : Str) : Nat :=
  match w.findIdx? ruVowel with
  | none => w.length
  | some i =>
    match (w.drop (i + 1)).findIdx? (fun c => !(ruVowel c)) with
    | none => w.length
    | some j =>
      match (w.drop (i + 1 + j + 1)).findIdx? ruVowel with
      | none => w.length
      | some k =>
        match (w.drop (i + 1 + j + 1 + k + 1)).findIdx? (fun c => !(ruVowel c)) with
        | none => w.length
        | some m => i + 1 + j + 1 + k + 1 + m + 1

/-- Snowball `mark_regions`: `(pV, p2)`. -/
def markRegions (w : Str) : Nat × Nat := (pVOf w, p2Of w)

/-- A Snowball ending: the literal suffix, and whether it belongs to a group-1
entry (must be preceded by `а` or `я`, which itself stays). -/
structure Ending where
  lit : Str
  needAYa : Bool
deriving DecidableEq

/-- Snowball `[substring] among (...)` in backward mode, on the reversed RV
`r`: take the longest listed ending that matches (the list is ordered longest
first), run its condition, and on success delete the ending. A failed group-1
condition fails the whole among without backtracking to a shorter ending. -/
def matchAmong (es : List Ending) (r : Str) : Option Str :=
  match es.find? (fun e => e.lit.reverse.isPrefixOf r) with
  | none => none
  | some e =>
    if e.needAYa then
      match r.drop e.lit.length with
      | c :: rest => if c = 'а' || c = 'я' then some (c :: rest) else none
      | [] => none
    else some (r.drop e.lit.length)

/-- PERFECTIVE GERUND endings. -/
def perfGerundEndings : List Ending :=
  [⟨"ившись".toList, false⟩, ⟨"ывшись".toList, false⟩, ⟨"вшись".toList, true⟩,
   ⟨"ивши".toList, false⟩, ⟨"ывши".toList, false⟩, ⟨"вши".toList, true⟩,
   ⟨"ив".toList, false⟩, ⟨"ыв".toList, false⟩, ⟨"в".toList, true⟩]

/-- REFLEXIVE endings. -/
def reflexiveEndings : List Ending :=
  [⟨"ся".toList, false⟩, ⟨"сь".toList, false⟩]

/-- ADJECTIVE endings. -/
def adjectiveEndings : List Ending :=
  [⟨"ими".toList, false⟩, ⟨"ыми".toList, false⟩, ⟨"его".toList, false⟩,
   ⟨"ого".toList, false⟩, ⟨"ему".toList, false⟩, ⟨"ому".toList, false⟩,
   ⟨"ее".toList, false⟩, ⟨"ие".toList, false⟩, ⟨"ые".toList, false⟩,
   ⟨"ое".toList, false⟩, ⟨"ей".toList, false⟩, ⟨"ий".toList, false⟩,
   ⟨"ый".toList, false⟩, ⟨"ой".toList, false⟩, ⟨"ем".toList, false⟩,
   ⟨"им".toList, false⟩, ⟨"ым".toList, false⟩, ⟨"ом".toList, false⟩,
   ⟨"их".toList, false⟩, ⟨"ых".toList, false⟩, ⟨"ую".toList, false⟩,
   ⟨"юю".toList, false⟩, ⟨"ая".toList, false⟩, ⟨"яя".toList, false⟩,
   ⟨"ою".toList, false⟩, ⟨"ею".toList, false⟩]

/-- PARTICIPLE endings. -/
def participleEndings : List Ending :=
  [⟨"ивш".toList, false⟩, ⟨"ывш".toList, false⟩, ⟨"ующ".toList, false⟩,
   ⟨"ем".toList, true⟩, ⟨"нн".toList, true⟩, ⟨"вш".toList, true⟩,
   ⟨"ющ".toList, true⟩, ⟨"щ".toList, true⟩]

/-- VERB endings. -/
def verbEndings : List Ending :=
  [⟨"ейте".toList, false⟩, ⟨"уйте".toList, false⟩,
   ⟨"ете".toList, true⟩, ⟨"йте".toList, true⟩, ⟨"ешь".toList, true⟩,
   ⟨"нно".toList, true⟩, ⟨"ила".toList, false⟩, ⟨"ыла".toList, false⟩,
   ⟨"ена".toList, false⟩, ⟨"ите".toList, false⟩, ⟨"или".toList, false⟩,
   ⟨"ыли".toList, false⟩, ⟨"ило".toList, false⟩, ⟨"ыло".toList, false⟩,
   ⟨"ено".toList, false⟩, ⟨"ует".toList, false⟩, ⟨"уют".toList, false⟩,
   ⟨"ены".toList, false⟩, ⟨"ить".toList, false⟩, ⟨"ыть".toList, false⟩,
   ⟨"ишь".toList, false⟩,
   ⟨"ла".toList, true⟩, ⟨"на".toList, true⟩, ⟨"ли".toList, true⟩,
   ⟨"ем".toList, true⟩, ⟨"ло".toList, true⟩, ⟨"но".toList, true⟩,
   ⟨"ет".toList, true⟩, ⟨"ют".toList, true⟩, ⟨"ны".toList, true⟩,
   ⟨"ть".toList, true⟩, ⟨"ей".toList, false⟩, ⟨"уй".toList, false⟩,
   ⟨"ил".toList, false⟩, ⟨"ыл".toList, false⟩, ⟨"им".toList, false⟩,
   ⟨"ым".toList, false⟩, ⟨"ен".toList, false⟩, ⟨"ят".toList, false⟩,
   ⟨"ит".toList, false⟩, ⟨"ыт".toList, false⟩, ⟨"ую".toList, false⟩,
   ⟨"й".toList, true⟩, ⟨"л".toList, true⟩, ⟨"н".toList, true⟩,
   ⟨"ю".toList, false⟩]

/-- NOUN endings. -/
def nounEndings : List Ending :=
  [⟨"иями".toList, false⟩,
   ⟨"ями".toList, false⟩, ⟨"ами".toList, false⟩, ⟨"ией".toList, false⟩,
   ⟨"иям".toList, false⟩, ⟨"ием".toList, false⟩, ⟨"иях".toList, false⟩,
   ⟨"ев".toList, false⟩, ⟨"ов".toList, false⟩, ⟨"ие".toList, false⟩,
   ⟨"ье".toList, false⟩, ⟨"еи".toList, false⟩, ⟨"ии".toList, false⟩,
   ⟨"ей".toList, false⟩, ⟨"ой".toList, false⟩, ⟨"ий".toList, false⟩,
   ⟨"ям".toList, false⟩, ⟨"ем".toList, false⟩, ⟨"ам".toList, false⟩,
   ⟨"ом".toList, false⟩, ⟨"ах".toList, false⟩, ⟨"ях".toList, false⟩,
   ⟨"ию".toList, false⟩, ⟨"ью".toList, false⟩, ⟨"ия".toList, false⟩,
   ⟨"ья".toList, false⟩,
   ⟨"а".toList, false⟩, ⟨"е".toList, false⟩, ⟨"и".toList, false⟩,
   ⟨"й".toList, false⟩, ⟨"о".toList, false⟩, ⟨"у".toList, false⟩,
   ⟨"ы".toList, false⟩, ⟨"ь".toList, false⟩, ⟨"ю".toList, false⟩,
   ⟨"я".toList, false⟩]

/-- DERIVATIONAL endings (subject to the R2 condition). -/
def derivEndings : List Ending :=
  [⟨"ость".toList, false⟩, ⟨"ост".toList, false⟩]

/-- Adjectival (adjective then optional preceding participle ending), else
verb, else noun removal — the alternatives tried after the optional reflexive
ending in step 1. -/
def step1b (r1 : Str) : Str :=
  match matchAmong adjectiveEndings r1 with
  | some r2 => (matchAmong participleEndings r2).getD r2
  | none =>
    match matchAmong verbEndings r1 with
    | some r2 => r2
    | none => (matchAmong nounEndings r1).getD r1

/-- Snowball Russian step 1: perfective gerund, otherwise optional reflexive
followed by adjectival or verb or noun. -/
def step1 (r : Str) : Str :=
  match matchAmong perfGerundEndings r with
  | some r1 => r1
  | none => step1b ((matchAmong reflexiveEndings r).getD r)

/-- Snowball `derivational`: remove `ост`/`ость` when the ending lies within
R2; `r2off` is `p2 - pV`, R2's offset inside RV. -/
def derivStep (r : Str) (r2off : Nat) : Str :=
  match matchAmong derivEndings r with
  | some r1 => if r2off ≤ r1.length then r1 else r
  | none => r

/-- Undouble a trailing `нн` (on the reversed stem). -/
def undoubleN : Str → Str
  | 'н' :: 'н' :: rest => 'н' :: rest
  | r => r

/-- Snowball `tidy_up`: superlative removal with `нн` undoubling, plain `нн`
undoubling, or soft-sign removal. -/
def tidyUp (r : Str) : Str :=
  if ("ейше".toList.reverse).isPrefixOf r then undoubleN (r.drop 4)
  else if ("ейш".toList.reverse).isPrefixOf r then undoubleN (r.drop 3)
  else if r.take 2 = ['н', 'н'] then r.drop 1
  else if r.take 1 = ['ь'] then r.drop 1
  else r

/-- Model of `snowballstemmer.stemmer("russian")` applied to one word: the
Snowball Russian stemming algorithm — fold `ё→е`, mark regions, then within
the RV region (processed in reverse) run step 1, drop a trailing `и`, the
derivational step and tidy-up. -/
def snowballRu (w : Str) : Str :=
  let wf := w.map yoFold
  let pm := markRegions wf
  let r0 := (wf.drop pm.1).reverse
  let r1 := step1 r0
  let r2 := if r1.take 1 = ['и'] then r1.drop 1 else r1
  let r3 := derivStep r2 (pm.2 - pm.1)
  let r4 := tidyUp r3
  wf.take pm.1 ++ r4.reverse

/-- A normalised edition sub-record (all keys present, cf. `_normalise_product`). -/
structure Edition where
  uid : Str
  price : Str
  priceold : Str
  sku : Str
  text : Str
  quantity : Str
deriving DecidableEq

/-- A normalised characteristic sub-record. -/
structure Characteristic where
  title : Str
  value : Str
deriving DecidableEq

/-- A canonical product dict as produced by `_normalise_product` (all keys
present; field values are the display strings the catalog stores). -/
structure Product where
  uid : Str := []
  title : Str := []
  sku : Str := []
  text : Str := []
  descr : Str := []
  price : Str := []
  priceold : Str := []
  quantity : Str := []
  portion : Str := []
  unit : Str := []
  mark : Str := []
  url : Str := []
  editions : List Edition := []
  characteristics : List Characteristic := []
  category : Str := []
deriving DecidableEq

/-- An entry of a raw `editions` list: either not a dict (skipped by the
`isinstance(ed, dict)` check) or a dict with optional keys. -/
inductive EdRaw where
  | other : EdRaw
  | dict (uid price priceold sku text quantity : Option Str) : EdRaw
deriving DecidableEq

/-- An entry of a raw `characteristics` list. -/
inductive ChRaw where
  | other : ChRaw
  | dict (title value : Option Str) : ChRaw
deriving DecidableEq

/-- A raw Tilda product dict: each key the normaliser reads may be absent. -/
structure Raw where
  uid : Option Str := none
  title : Option Str := none
  sku : Option Str := none
  text : Option Str := none
  descr : Option Str := none
  price : Option Str := none
  priceold : Option Str := none
  quantity : Option Str := none
  portion : Option Str := none
  unit : Option Str := none
  mark : Option Str := none
  url : Option Str := none
  editions : Option (List EdRaw) := none
  characteristics : Option (List ChRaw) := none
  category : Option Str := none
deriving DecidableEq

/-- Normalisation of one edition entry: dicts get all keys defaulted, non-dict
entries are dropped. -/
def normEdition : EdRaw → Option Edition
  | .other => none
  | .dict u p po s t q =>
    some ⟨u.getD [], p.getD [], po.getD [], s.getD [], t.getD [], q.getD []⟩

/-- Normalisation of one characteristic entry. -/
def normCh : ChRaw → Option Characteristic
  | .other => none
  | .dict t v => some ⟨t.getD [], v.getD []⟩

/-- Model of `_normalise_product(raw, category_slug)`. -/
def normaliseProduct (raw : Raw) (categorySlug : Str) : Product :=
  { uid := raw.uid.getD []
    title := raw.title.getD []
    sku := raw.sku.getD []
    text := raw.text.getD []
    descr := raw.descr.getD []
    price := raw.price.getD []
    priceold := raw.priceold.getD []
    quantity := raw.quantity.getD []
    portion := raw.portion.getD []
    unit := raw.unit.getD []
    mark := raw.mark.getD []
    url := raw.url.getD []
    editions := (raw.editions.getD []).filterMap normEdition
    characteristics := (raw.characteristics.getD []).filterMap normCh
    category := categorySlug }

/-- View a normalised edition as the dict it is (all keys present). -/
def Edition.toRaw (e : Edition) : EdRaw :=
  .dict (some e.uid) (some e.price) (some e.priceold) (some e.sku)
    (some e.text) (some e.quantity)

/-- View a normalised characteristic as the dict it is. -/
def Characteristic.toRaw (c : Characteristic) : ChRaw :=
  .dict (some c.title) (some c.value)

/-- View a normalised product as the dict it is, so it can be fed back to
`_normalise_product` (every key present with its stored value). -/
def Product.toRaw (p : Product) : Raw :=
  { uid := some p.uid
    title := some p.title
    sku := some p.sku
    text := some p.text
    descr := some p.descr
    price := some p.price
    priceold := some p.priceold
    quantity := some p.quantity
    portion := some p.portion
    unit := some p.unit
    mark := some p.mark
    url := some p.url
    editions := some (p.editions.map Edition.toRaw)
    characteristics := some (p.characteristics.map Characteristic.toRaw)
    category := some p.category }

/-- The in-memory catalog state (`ProductCatalog`): the product list, the
pre-computed stemmed search index, and the scrape metadata timestamps. -/
structure Catalog where
  products : List Product
  searchIndex : List (List Str × List Str)
  lastFullScrape : Nat
  lastPriceRefresh : Nat
deriving DecidableEq

/-- Model of `ProductCatalog._stem_text`: normalize, strip punctuation, split,
stem every word, and join the stems with single spaces. -/
def stemText (t : Str) : Str :=
  let cleaned := rePunctSub (normalizeText t)
  let words := pySplit cleaned
  joinSpace (words.map snowballRu)

/-- The concatenated "other fields" text of a product as assembled (with
single-space joins) both by `_build_search_index` and by `search`'s fallback:
text, descr, category, sku, and all `characteristic title + " " + value`. -/
def otherFieldsText (p : Product) : Str :=
  joinSpace
    [p.text, p.descr, p.category, p.sku,
     joinSpace (p.characteristics.map (fun c => c.title ++ ' ' :: c.value))]

/-- Model of `ProductCatalog._build_search_index`: one
`(title_stem_words, other_stem_words)` entry per product, in product order. -/
def buildSearchIndex (ps : List Product) : List (List Str × List Str) :=
  ps.map (fun p => (pySplit (stemText p.title), pySplit (stemText (otherFieldsText p))))

/-- Length of the common prefix of two stems, as counted by the `zip` loop in
`_stem_match`. -/
def commonPrefixLen : Str → Str → Nat
  | a :: as, b :: bs => if a = b then commonPrefixLen as bs + 1 else 0
  | _, _ => 0

/-- Model of `ProductCatalog._stem_match(query_stem, stem_words)`. -/
def stemMatch (q : Str) (stemWords : List Str) : Bool :=
  if q.length < 3 then stemWords.contains q
  else
    stemWords.any (fun sw =>
      if q = sw then true
      else
        let minlen := min q.length sw.length
        if minlen < 3 then false
        else if q.isPrefixOf sw || sw.isPrefixOf q then true
        else if 5 ≤ minlen then decide (minlen - 1 ≤ commonPrefixLen q sw)
        else false)

/-- The query tokens of `search`: `self._normalize(query).split()`. -/
def normTermsOf (q : Str) : List Str := pySplit (normalizeText q)

/-- The stemmed query terms of `search`: `_ru_stemmer.stemWords(norm_terms)`. -/
def stemTermsOf (q : Str) : List Str := (normTermsOf q).map snowballRu

/-- The stemmed-index score accumulated by `search` for one product: per query
stem +3 on a title-stem match, else +1 on an other-fields match. -/
def stemScoreOf (stems : List Str) (e : List Str × List Str) : Nat :=
  stems.foldl
    (fun acc st =>
      if stemMatch st e.1 then acc + 3
      else if stemMatch st e.2 then acc + 1 else acc) 0

/-- Python `t in s` on strings: `t` occurs as a contiguous substring of `s`. -/
def strContains (t : Str) : Str → Bool
  | [] => t.isEmpty
  | c :: rest => t.isPrefixOf (c :: rest) || strContains t rest

/-- The substring-fallback score of `search`: per raw normalised query token,
+3 if it occurs in the normalised title, else +1 if it occurs in the
normalised other-fields text. -/
def fallbackScoreOf (normTerms : List Str) (p : Product) : Nat :=
  let title := normalizeText p.title
  let other := normalizeText (otherFieldsText p)
  normTerms.foldl
    (fun acc t =>
      if strContains t title then acc + 3
      else if strContains t other then acc + 1 else acc) 0

/-- The total score `search` assigns one product: the stemmed score through
the product's index entry when one is available, with the substring fallback
applied exactly when the stemmed score is zero. -/
def productScore (stems normTerms : List Str) (e : Option (List Str × List Str))
    (p : Product) : Nat :=
  let s := match e with
    | some e => stemScoreOf stems e
    | none => 0
  if s = 0 then fallbackScoreOf normTerms p else s

/-- Insert into a descending-by-score list, after every element of greater or
equal score. -/
def insDesc (x : Nat × Product) : List (Nat × Product) → List (Nat × Product)
  | [] => [x]
  | y :: ys => if y.1 < x.1 then x :: y :: ys else y :: insDesc x ys

/-- Model of Python's stable `list.sort(key=lambda x: x[0], reverse=True)`:
a stable descending sort by score (elements are inserted left to right, each
after all elements of greater or equal score, so equal-score elements keep
their original relative order). -/
def pySortDesc (l : List (Nat × Product)) : List (Nat × Product) :=
  l.foldl (fun acc x => insDesc x acc) []

/-- Model of `ProductCatalog.search(query, limit)`. The per-index access
`self._search_index[i]` under `enumerate(self.products)` is rendered by
zipping the product list with its index when the lengths agree, and by `none`
entries otherwise. -/
def Catalog.search (cat : Catalog) (query : Str) (limit : Nat) : List Product :=
  if pyStrip query = [] then []
  else
    let stemTerms := stemTermsOf query
    let normTerms := normTermsOf query
    let withEntries : List (Product × Option (List Str × List Str)) :=
      if cat.searchIndex.length = cat.products.length then
        cat.products.zip (cat.searchIndex.map some)
      else cat.products.map (fun p => (p, none))
    let results := withEntries.filterMap (fun pe =>
      let s := productScore stemTerms normTerms pe.2 pe.1
      if 0 < s then some (s, pe.1) else none)
    ((pySortDesc results).take limit).map Prod.snd

/-- Model of `ProductCatalog.get_by_category(category, limit)`. -/
def Catalog.getByCategory (cat : Catalog) (category : Str) (limit : Nat) :
    List Product :=
  (cat.products.filter (fun p => decide (p.category = category))).take limit

/-- Loop worker of `get_available`: skip `quantity == "0"`, append, and break
as soon as the accumulated result reaches the limit. -/
def availLoop (limit : Nat) : List Product → List Product → List Product
  | [], acc => acc
  | p :: ps, acc =>
    if p.quantity = ['0'] then availLoop limit ps acc
    else
      if limit ≤ acc.length + 1 then acc ++ [p]
      else availLoop limit ps (acc ++ [p])

/-- Model of `ProductCatalog.get_available(limit)`. -/
def Catalog.getAvailable (cat : Catalog) (limit : Nat) : List Product :=
  availLoop limit cat.products []

/-- Inner loop of `full_scrape` over one category's raw records: skip a record
whose non-empty uid was already seen, otherwise record a non-empty uid as seen
and append the normalised product. -/
def dedupCat (slug : Str) (seen : List Str) (acc : List Product) :
    List Raw → List Product × List Str
  | [] => (acc, seen)
  | rp :: rs =>
    let uid := rp.uid.getD []
    if uid ≠ [] ∧ uid ∈ seen then dedupCat slug seen acc rs
    else
      dedupCat slug (if uid ≠ [] then uid :: seen else seen)
        (acc ++ [normaliseProduct rp slug]) rs

/-- Outer loop of `full_scrape` over the categories. -/
def dedupCats (seen : List Str) (acc : List Product) :
    List (Str × List Raw) → List Product × List Str
  | [] => (acc, seen)
  | x :: rest =>
    let r := dedupCat x.1 seen acc x.2
    dedupCats r.2 r.1 rest

/-- The pure accumulation core of `ProductCatalog.full_scrape`: `fetched`
lists, per category slug in `CATEGORY_SLUGS` order, the raw records returned
by all of that category's `(storepart, recid)` pairs in fetch order (a
category whose page or ids could not be fetched simply contributes no entry). -/
def fullScrape (fetched : List (Str × List Raw)) : List Product :=
  (dedupCats [] [] fetched).1

/-- Model of `full_scrape`'s effect on the catalog state: replace the product
list, set both timestamps, rebuild the search index. -/
def Catalog.fullScrapeOp (_cat : Catalog) (fetched : List (Str × List Raw))
    (now : Nat) : Catalog :=
  let ps := fullScrape fetched
  { products := ps
    searchIndex := buildSearchIndex ps
    lastFullScrape := now
    lastPriceRefresh := now }

/-- Lookup in the model of a Python dict rendered as an association list in
which the most recent insertion for a key comes first. -/
def lookupIdx (m : List (Str × Nat)) (u : Str) : Option Nat :=
  (m.find? (fun kv => decide (kv.1 = u))).map Prod.snd

/-- Model of `refresh_prices`' initial `by_uid` dict
(`{p["uid"]: p for p in self.products if p.get("uid")}`): products with a
non-empty uid, keyed by uid, mapped to their list position; a later product
with the same uid overwrites an earlier one. -/
def buildByUid (ps : List Product) : List (Str × Nat) :=
  ps.enum.foldl
    (fun m ip => if ip.2.uid ≠ [] then (ip.2.uid, ip.1) :: m else m) []

/-- Replace the element at position `i` (no effect when out of range). -/
def updateAt (i : Nat) (f : Product → Product) : List Product → List Product
  | [] => []
  | p :: ps =>
    match i with
    | 0 => f p :: ps
    | i + 1 => p :: updateAt i f ps

/-- Apply a raw record's price fields to an existing product
(`rp.get("price", current)` etc.). -/
def applyPrices (rp : Raw) (p : Product) : Product :=
  { p with
    price := rp.price.getD p.price
    priceold := rp.priceold.getD p.priceold
    quantity := rp.quantity.getD p.quantity }

/-- One record of the `refresh_prices` loop: a known uid patches the aliased
product's price fields in place; an unknown uid appends the normalised record
and registers it (under its uid, even an empty one). -/
def refreshRecord (slug : Str) (st : List Product × List (Str × Nat))
    (rp : Raw) : List Product × List (Str × Nat) :=
  let uid := rp.uid.getD []
  match lookupIdx st.2 uid with
  | some i => (updateAt i (applyPrices rp) st.1, st.2)
  | none =>
    (st.1 ++ [normaliseProduct rp slug], (uid, st.1.length) :: st.2)

/-- Inner loop of `refresh_prices` over one category's records. -/
def refreshCat (slug : Str) (st : List Product × List (Str × Nat)) :
    List Raw → List Product × List (Str × Nat)
  | [] => st
  | rp :: rs => refreshCat slug (refreshRecord slug st rp) rs

/-- Outer loop of `refresh_prices` over the categories. -/
def refreshCats (st : List Product × List (Str × Nat)) :
    List (Str × List Raw) → List Product × List (Str × Nat)
  | [] => st
  | x :: rest => refreshCats (refreshCat x.1 st x.2) rest

/-- The pure core of `ProductCatalog.refresh_prices` on a non-empty catalog:
fold every fetched record over the (product list, by_uid) state. -/
def refreshCore (ps : List Product) (fetched : List (Str × List Raw)) :
    List Product :=
  (refreshCats (ps, buildByUid ps) fetched).1

/-- Model of `refresh_prices`' effect on the catalog state: degrade to a full
scrape when the catalog is empty; otherwise patch/append products, advance
only `last_price_refresh`, and rebuild the search index. -/
def Catalog.refreshPricesOp (cat : Catalog) (fetched : List (Str × List Raw))
    (now : Nat) : Catalog :=
  if cat.products = [] then cat.fullScrapeOp fetched now
  else
    let ps := refreshCore cat.products fetched
    { products := ps
      searchIndex := buildSearchIndex ps
      lastFullScrape := cat.lastFullScrape
      lastPriceRefresh := now }

/-- Specification of a single stem-to-stem match, as the spec states it:
exact equality; or both ≥ 3 characters and one a prefix of the other; or both
≥ 5 characters and some common prefix of length at least `min − 1`. -/
def pairSpec (q w : Str) : Prop :=
  q = w ∨
  (3 ≤ q.length ∧ 3 ≤ w.length ∧ (q <+: w ∨ w <+: q)) ∨
  (5 ≤ q.length ∧ 5 ≤ w.length ∧
    ∃ n, min q.length w.length - 1 ≤ n ∧ q.take n = w.take n)

/-- Scored products grouped by strictly positive score, in descending score
order, each group in the original list order: the specification of a stable
descending sort restricted to positive scores. -/
def bucketsDesc : Nat → List (Nat × Product) → List (Nat × Product)
  | 0, _ => []
  | s + 1, l => l.filter (fun x => decide (x.1 = s + 1)) ++ bucketsDesc s l

/-- Ranked product list described by the spec: the products of positive score
(`bound` is any upper bound of the scores), best scores first, ties in list
order. -/
def rankedByScore (scored : List (Nat × Product)) (bound : Nat) : List Product :=
  (bucketsDesc bound scored).map Prod.snd

/-- Per-product substring-fallback score as the spec words it: the sum over
raw normalised tokens of 3 for a title containment else 1 for an other-fields
containment. -/
def specScoreFallback (q : Str) (p : Product) : Nat :=
  ((normTermsOf q).map (fun t =>
    if strContains t (normalizeText p.title) then 3
    else if strContains t (normalizeText (otherFieldsText p)) then 1 else 0)).sum

/-- Per-product score as the spec words it (index path): the sum over query
stems of 3 for a title-stem match else 1 for an other-fields match, with the
substring fallback exactly when that sum is zero. -/
def specScoreIdx (q : Str) (e : List Str × List Str) (p : Product) : Nat :=
  let s := ((stemTermsOf q).map (fun st =>
    if stemMatch st e.1 then 3 else if stemMatch st e.2 then 1 else 0)).sum
  if s = 0 then specScoreFallback q p else s

/-- The positively-scored products of a length-aligned catalog, paired with
their spec scores, in product order. -/
def specScoredIdx (cat : Catalog) (q : Str) : List (Nat × Product) :=
  (cat.products.zip cat.searchIndex).filterMap (fun pe =>
    if 0 < specScoreIdx q pe.2 pe.1 then some (specScoreIdx q pe.2 pe.1, pe.1)
    else none)

/-- The positively-scored products under fallback-only scoring. -/
def specScoredFallback (cat : Catalog) (q : Str) : List (Nat × Product) :=
  cat.products.filterMap (fun p =>
    if 0 < specScoreFallback q p then some (specScoreFallback q p, p) else none)

/-- First raw record carrying uid `u` in scrape iteration order
(category, then pair/record order), together with its category slug. -/
def firstOcc (u : Str) : List (Str × List Raw) → Option (Str × Raw)
  | [] => none
  | x :: rest =>
    match x.2.find? (fun r => decide (r.uid.getD [] = u)) with
    | some r => some (x.1, r)
    | none => firstOcc u rest

/-- Frame relation of `refresh_prices`: `q` agrees with `p` on every field
except possibly `price`, `priceold` and `quantity`. -/
def frameEq (p q : Product) : Prop :=
  p.uid = q.uid ∧ p.title = q.title ∧ p.sku = q.sku ∧ p.text = q.text ∧
  p.descr = q.descr ∧ p.portion = q.portion ∧ p.unit = q.unit ∧
  p.mark = q.mark ∧ p.url = q.url ∧ p.editions = q.editions ∧
  p.characteristics = q.characteristics ∧ p.category = q.category

/-- All fetched records, tagged with their category slug, in iteration order. -/
def allRecords (fetched : List (Str × List Raw)) : List (Str × Raw) :=
  fetched.flatMap (fun x => x.2.map (fun r => (x.1, r)))

theorem normEdition_toRaw (e : Edition) : normEdition e.toRaw = some e := rfl

theorem normCh_toRaw (c : Characteristic) : normCh c.toRaw = some c := rfl

theorem filterMap_normEdition_toRaw (l : List Edition) :
    l.filterMap (normEdition ∘ Edition.toRaw) = l := by
  induction l with
  | nil => rfl
  | cons e l ih => simp [List.filterMap_cons, Function.comp, normEdition_toRaw, ih]

theorem filterMap_normCh_toRaw (l : List Characteristic) :
    l.filterMap (normCh ∘ Characteristic.toRaw) = l := by
  induction l with
  | nil => rfl
  | cons e l ih => simp [List.filterMap_cons, Function.comp, normCh_toRaw, ih]

/-- C10: normalisation is idempotent — `_normalise_product` applied to its
own output (viewed again as a raw dict) returns the same product. -/
theorem c10_normalise_idempotent (r : Raw) (c : Str) :
    normaliseProduct (normaliseProduct r c).toRaw c = normaliseProduct r c := by
  unfold normaliseProduct Product.toRaw
  simp [filterMap_normEdition_toRaw, filterMap_normCh_toRaw]

theorem commonPrefixLen_take_eq :
    ∀ a b : Str, a.take (commonPrefixLen a b) = b.take (commonPrefixLen a b)
  | [], _ => by simp [commonPrefixLen]
  | _ :: _, [] => by simp [commonPrefixLen]
  | a :: as, b :: bs => by
    by_cases h : a = b
    · simpa [commonPrefixLen, h] using commonPrefixLen_take_eq as bs
    · simp [commonPrefixLen, h]

theorem take_eq_le_commonPrefixLen :
    ∀ (a b : Str) (n : Nat), a.take n = b.take n →
      min n (min a.length b.length) ≤ commonPrefixLen a b
  | [], b, n, _ => by simp
  | _ :: _, [], n, _ => by simp
  | a :: as, b :: bs, 0, _ => by simp
  | a :: as, b :: bs, n + 1, h => by
    simp only [List.take_succ_cons, List.cons.injEq] at h
    have ih := take_eq_le_commonPrefixLen as bs n h.2
    simp only [commonPrefixLen, h.1, if_pos]
    simp only [List.length_cons]
    omega

theorem commonPrefixLen_spec (a b : Str) :
    min a.length b.length - 1 ≤ commonPrefixLen a b ↔
      ∃ n, min a.length b.length - 1 ≤ n ∧ a.take n = b.take n := by
  constructor
  · intro h
    exact ⟨commonPrefixLen a b, h, commonPrefixLen_take_eq a b⟩
  · rintro ⟨n, hn, htake⟩
    have := take_eq_le_commonPrefixLen a b n htake
    omega

theorem stem_pair_iff (q w : Str) (h3 : 3 ≤ q.length) :
    (if q = w then true
     else
       if min q.length w.length < 3 then false
       else if q.isPrefixOf w || w.isPrefixOf q then true
       else if 5 ≤ min q.length w.length then
         decide (min q.length w.length - 1 ≤ commonPrefixLen q w)
       else false) = true ↔ pairSpec q w := by
  by_cases heq : q = w
  · simp [heq, pairSpec]
  · rw [if_neg heq]
    by_cases hm : min q.length w.length < 3
    · simp only [if_pos hm]
      have hnp : ¬ pairSpec q w := by
        rintro (h | ⟨_, hw, _⟩ | ⟨_, hw, _⟩)
        · exact heq h
        · omega
        · omega
      simp [hnp]
    · rw [if_neg hm]
      by_cases hp : (q.isPrefixOf w || w.isPrefixOf q) = true
      · rw [if_pos hp]
        simp only [Bool.or_eq_true, List.isPrefixOf_iff_prefix] at hp
        simp only [true_iff]
        exact Or.inr (Or.inl ⟨h3, by omega, hp⟩)
      · rw [if_neg hp]
        simp only [Bool.or_eq_true, List.isPrefixOf_iff_prefix, not_or] at hp
        by_cases h5 : 5 ≤ min q.length w.length
        · rw [if_pos h5]
          simp only [decide_eq_true_eq, commonPrefixLen_spec]
          unfold pairSpec
          constructor
          · intro h
            exact Or.inr (Or.inr ⟨by omega, by omega, h⟩)
          · rintro (h | ⟨_, _, hpre⟩ | ⟨_, _, h⟩)
            · exact absurd h heq
            · exact absurd hpre (by simpa using hp)
            · exact h
        · rw [if_neg h5]
          have hnp : ¬ pairSpec q w := by
            rintro (h | ⟨_, _, hpre⟩ | ⟨hq5, hw5, _⟩)
            · exact heq h
            · exact absurd hpre (by simpa using hp)
            · omega
          simp [hnp]

theorem stemMatch_iff (q : Str) (ws : List Str) :
    stemMatch q ws = true ↔ ∃ w ∈ ws, pairSpec q w := by
  unfold stemMatch
  by_cases hq : q.length < 3
  · simp only [if_pos hq, List.contains, List.elem_iff]
    constructor
    · intro h
      exact ⟨q, h, Or.inl rfl⟩
    · rintro ⟨w, hw, hspec⟩
      rcases hspec with h | ⟨h3, _, _⟩ | ⟨h5, _, _⟩
      · exact h ▸ hw
      · omega
      · omega
  · rw [if_neg hq]
    rw [List.any_eq_true]
    constructor
    · rintro ⟨w, hw, h⟩
      exact ⟨w, hw, (stem_pair_iff q w (by omega)).1 h⟩
    · rintro ⟨w, hw, h⟩
      exact ⟨w, hw, (stem_pair_iff q w (by omega)).2 h⟩

/-- C2: the stem-to-stem match used in scoring holds exactly when the stems
are equal, or both have length ≥ 3 and one is a prefix of the other, or both
have length ≥ 5 and their longest common prefix has length at least
`min(len_a, len_b) − 1`; a stem shorter than 3 characters matches only by
exact equality. -/
theorem c2_stem_match_spec :
    (∀ q w, stemMatch q [w] = true ↔ pairSpec q w) ∧
    (∀ q ws, stemMatch q ws = true ↔ ∃ w ∈ ws, pairSpec q w) := by
  refine ⟨fun q w => ?_, stemMatch_iff⟩
  rw [stemMatch_iff]
  simp

theorem availLoop_quantity (limit : Nat) :
    ∀ (ps acc : List Product), (∀ x ∈ acc, x.quantity ≠ ['0']) →
      ∀ x ∈ availLoop limit ps acc, x.quantity ≠ ['0']
  | [], acc, hacc => hacc
  | p :: ps, acc, hacc => by
    unfold availLoop
    by_cases hq : p.quantity = ['0']
    · rw [if_pos hq]
      exact availLoop_quantity limit ps acc hacc
    · rw [if_neg hq]
      have hacc' : ∀ x ∈ acc ++ [p], x.quantity ≠ ['0'] := by
        intro x hx
        rcases List.mem_append.1 hx with h | h
        · exact hacc x h
        · simpa using (List.mem_singleton.1 h) ▸ hq
      by_cases hl : limit ≤ acc.length + 1
      · rw [if_pos hl]; exact hacc'
      · rw [if_neg hl]
        exact availLoop_quantity limit ps (acc ++ [p]) hacc'

theorem availLoop_filter_take (limit : Nat) :
    ∀ (ps acc : List Product), acc.length < limit →
      availLoop limit ps acc =
        acc ++ (ps.filter (fun p => decide (p.quantity ≠ ['0']))).take
          (limit - acc.length)
  | [], acc, _ => by simp [availLoop]
  | p :: ps, acc, hlt => by
    unfold availLoop
    by_cases hq : p.quantity = ['0']
    · rw [if_pos hq]
      rw [availLoop_filter_take limit ps acc hlt]
      simp [List.filter_cons, hq]
    · rw [if_neg hq]
      by_cases hl : limit ≤ acc.length + 1
      · rw [if_pos hl]
        have h1 : limit - acc.length = 1 := by omega
        simp [List.filter_cons, hq, h1]
      · rw [if_neg hl]
        rw [availLoop_filter_take limit ps (acc ++ [p]) (by simp; omega)]
        have h2 : limit - acc.length = limit - (acc.length + 1) + 1 := by omega
        rw [h2]
        simp [List.filter_cons, hq, List.take_succ_cons]
  termination_by ps => ps.length

/-- Product used in the concrete availability/search demonstration. -/
def demoProduct : Product :=
  { title := "fish".toList, quantity := ['0'], category := "cat0".toList }

/-- One-product catalog whose single product is out of stock. -/
def demoCat : Catalog :=
  { products := [demoProduct]
    searchIndex := buildSearchIndex [demoProduct]
    lastFullScrape := 0
    lastPriceRefresh := 0 }

/-- C9: a product with `quantity == "0"` never appears in `get_available`
(any limit); for a positive limit `get_available` returns precisely the
products whose quantity differs from `"0"` (so `""`, `"-1"` and any other
value are not excluded), truncated to the limit; and such an out-of-stock
product is still returned by `get_by_category` and can still be a `search`
hit. -/
theorem c9_quantity_zero_excluded_only_from_available :
    (∀ (cat : Catalog) (limit : Nat) (p : Product), p.quantity = ['0'] →
      p ∉ cat.getAvailable limit) ∧
    (∀ (cat : Catalog) (limit : Nat), 1 ≤ limit →
      cat.getAvailable limit =
        (cat.products.filter (fun p => decide (p.quantity ≠ ['0']))).take limit) ∧
    (demoProduct ∈ demoCat.getByCategory ("cat0".toList) 50 ∧
     demoProduct ∈ demoCat.search ("fish".toList) 10 ∧
     demoProduct ∉ demoCat.getAvailable 50) := by
  refine ⟨?_, ?_, ?_, ?_, ?_⟩
  · intro cat limit p hq hmem
    exact availLoop_quantity limit cat.products [] (by simp) p hmem hq
  · intro cat limit hl
    unfold Catalog.getAvailable
    rw [availLoop_filter_take limit cat.products [] (by simpa using hl)]
    simp
  · decide
  · decide
  · decide

theorem c9_witness : demoProduct ∉ demoCat.getAvailable 7 :=
  c9_quantity_zero_excluded_only_from_available.1 demoCat 7 demoProduct (by decide)

theorem normaliseProduct_uid (r : Raw) (slug : Str) :
    (normaliseProduct r slug).uid = r.uid.getD [] := rfl

theorem dedupCat_empty_uid (slug : Str) :
    ∀ (rs : List Raw) (seen : List Str) (acc : List Product),
      ((dedupCat slug seen acc rs).1).filter (fun p => decide (p.uid = [])) =
        acc.filter (fun p => decide (p.uid = [])) ++
          (rs.filter (fun r => decide (r.uid.getD [] = []))).map
            (fun r => normaliseProduct r slug)
  | [], seen, acc => by simp [dedupCat]
  | rp :: rs, seen, acc => by
    unfold dedupCat
    by_cases hc : rp.uid.getD [] ≠ [] ∧ rp.uid.getD [] ∈ seen
    · rw [if_pos hc]
      rw [dedupCat_empty_uid slug rs seen acc]
      have : decide (rp.uid.getD [] = []) = false := by
        simpa using hc.1
      simp [List.filter_cons, this]
    · rw [if_neg hc]
      rw [dedupCat_empty_uid slug rs _ (acc ++ [normaliseProduct rp slug])]
      by_cases he : rp.uid.getD [] = []
      · simp [List.filter_cons, he, List.filter_append, normaliseProduct_uid]
      · simp [List.filter_cons, he, List.filter_append, normaliseProduct_uid]

/-- Normalised images of the raw records whose uid is missing or empty, in
iteration order. -/
def emptyUidProducts (fetched : List (Str × List Raw)) : List Product :=
  fetched.flatMap (fun x =>
    (x.2.filter (fun r => decide (r.uid.getD [] = []))).map
      (fun r => normaliseProduct r x.1))

theorem dedupCats_empty_uid :
    ∀ (fetched : List (Str × List Raw)) (seen : List Str) (acc : List Product),
      ((dedupCats seen acc fetched).1).filter (fun p => decide (p.uid = [])) =
        acc.filter (fun p => decide (p.uid = [])) ++ emptyUidProducts fetched
  | [], seen, acc => by simp [dedupCats, emptyUidProducts]
  | x :: rest, seen, acc => by
    unfold dedupCats
    rw [dedupCats_empty_uid rest _ _]
    rw [dedupCat_empty_uid x.1 x.2 seen acc]
    simp [emptyUidProducts]

/-- C6: deduplication applies only to non-empty uids — every raw record whose
uid is missing or empty is normalised and appended unconditionally, so the
catalog's empty-uid products are exactly the normalised empty-uid records in
iteration order (hence uid uniqueness holds only among non-empty uids). -/
theorem c6_empty_uid_not_deduplicated (fetched : List (Str × List Raw)) :
    (fullScrape fetched).filter (fun p => decide (p.uid = [])) =
      emptyUidProducts fetched := by
  unfold fullScrape
  rw [dedupCats_empty_uid fetched [] []]
  rfl

theorem dedupCat_seen (slug : Str) (u : Str) (hu : u ≠ []) :
    ∀ (rs : List Raw) (seen : List Str) (acc : List Product), u ∈ seen →
      ((dedupCat slug seen acc rs).1).filter (fun p => decide (p.uid = u)) =
        acc.filter (fun p => decide (p.uid = u)) ∧
      u ∈ (dedupCat slug seen acc rs).2
  | [], seen, acc, h => ⟨rfl, h⟩
  | rp :: rs, seen, acc, h => by
    unfold dedupCat
    by_cases hc : rp.uid.getD [] ≠ [] ∧ rp.uid.getD [] ∈ seen
    · rw [if_pos hc]
      exact dedupCat_seen slug u hu rs seen acc h
    · rw [if_neg hc]
      have hne : rp.uid.getD [] ≠ u := by
        intro he
        exact hc ⟨he ▸ hu, he ▸ h⟩
      have hmem : u ∈ (if rp.uid.getD [] ≠ [] then rp.uid.getD [] :: seen else seen) := by
        split
        · exact List.mem_cons_of_mem _ h
        · exact h
      have ih := dedupCat_seen slug u hu rs _ (acc ++ [normaliseProduct rp slug]) hmem
      refine ⟨?_, ih.2⟩
      rw [ih.1]
      simp [List.filter_append, normaliseProduct_uid, hne]

theorem dedupCat_unseen (slug : Str) (u : Str) (hu : u ≠ []) :
    ∀ (rs : List Raw) (seen : List Str) (acc : List Product), u ∉ seen →
      match rs.find? (fun r => decide (r.uid.getD [] = u)) with
      | some r =>
        ((dedupCat slug seen acc rs).1).filter (fun p => decide (p.uid = u)) =
          acc.filter (fun p => decide (p.uid = u)) ++ [normaliseProduct r slug] ∧
        u ∈ (dedupCat slug seen acc rs).2
      | none =>
        ((dedupCat slug seen acc rs).1).filter (fun p => decide (p.uid = u)) =
          acc.filter (fun p => decide (p.uid = u)) ∧
        u ∉ (dedupCat slug seen acc rs).2
  | [], seen, acc, h => ⟨rfl, h⟩
  | rp :: rs, seen, acc, h => by
    by_cases he : rp.uid.getD [] = u
    · have hfind : (rp :: rs).find? (fun r => decide (r.uid.getD [] = u)) = some rp := by
        simp [List.find?_cons, he]
      rw [hfind]
      unfold dedupCat
      have hc : ¬ (rp.uid.getD [] ≠ [] ∧ rp.uid.getD [] ∈ seen) := by
        rintro ⟨_, hmem⟩
        exact h (he ▸ hmem)
      rw [if_neg hc]
      have hseen' : u ∈ (if rp.uid.getD [] ≠ [] then rp.uid.getD [] :: seen else seen) := by
        rw [if_pos (he ▸ hu)]
        exact he ▸ List.mem_cons_self _ _
      have hs := dedupCat_seen slug u hu rs _ (acc ++ [normaliseProduct rp slug]) hseen'
      refine ⟨?_, hs.2⟩
      rw [hs.1]
      simp [List.filter_append, normaliseProduct_uid, he]
    · have hfind : (rp :: rs).find? (fun r => decide (r.uid.getD [] = u)) =
          rs.find? (fun r => decide (r.uid.getD [] = u)) := by
        simp [List.find?_cons, he]
      rw [hfind]
      unfold dedupCat
      by_cases hc : rp.uid.getD [] ≠ [] ∧ rp.uid.getD [] ∈ seen
      · rw [if_pos hc]
        exact dedupCat_unseen slug u hu rs seen acc h
      · rw [if_neg hc]
        have hnot : u ∉ (if rp.uid.getD [] ≠ [] then rp.uid.getD [] :: seen else seen) := by
          split
          · intro hmem
            rcases List.mem_cons.1 hmem with h1 | h1
            · exact he h1.symm
            · exact h h1
          · exact h
        have ih := dedupCat_unseen slug u hu rs _ (acc ++ [normaliseProduct rp slug]) hnot
        cases hf : rs.find? (fun r => decide (r.uid.getD [] = u)) with
        | some r =>
          rw [hf] at ih
          refine ⟨?_, ih.2⟩
          rw [ih.1]
          simp [List.filter_append, normaliseProduct_uid, he]
        | none =>
          rw [hf] at ih
          refine ⟨?_, ih.2⟩
          rw [ih.1]
          simp [List.filter_append, normaliseProduct_uid, he]

theorem dedupCats_seen (u : Str) (hu : u ≠ []) :
    ∀ (fetched : List (Str × List Raw)) (seen : List Str) (acc : List Product),
      u ∈ seen →
      ((dedupCats seen acc fetched).1).filter (fun p => decide (p.uid = u)) =
        acc.filter (fun p => decide (p.uid = u))
  | [], seen, acc, h => rfl
  | x :: rest, seen, acc, h => by
    unfold dedupCats
    have hcat := dedupCat_seen x.1 u hu x.2 seen acc h
    rw [dedupCats_seen u hu rest _ _ hcat.2]
    exact hcat.1

theorem dedupCats_unseen (u : Str) (hu : u ≠ []) :
    ∀ (fetched : List (Str × List Raw)) (seen : List Str) (acc : List Product),
      u ∉ seen →
      match firstOcc u fetched with
      | some sr =>
        ((dedupCats seen acc fetched).1).filter (fun p => decide (p.uid = u)) =
          acc.filter (fun p => decide (p.uid = u)) ++ [normaliseProduct sr.2 sr.1]
      | none =>
        ((dedupCats seen acc fetched).1).filter (fun p => decide (p.uid = u)) =
          acc.filter (fun p => decide (p.uid = u))
  | [], seen, acc, h => rfl
  | x :: rest, seen, acc, h => by
    unfold dedupCats firstOcc
    have hcat := dedupCat_unseen x.1 u hu x.2 seen acc h
    cases hf : x.2.find? (fun r => decide (r.uid.getD [] = u)) with
    | some r =>
      rw [hf] at hcat
      rw [dedupCats_seen u hu rest _ _ hcat.2]
      exact hcat.1
    | none =>
      rw [hf] at hcat
      have ih := dedupCats_unseen u hu rest _ (dedupCat x.1 seen acc x.2).1 hcat.2
      cases hfo : firstOcc u rest with
      | some sr =>
        rw [hfo] at ih
        rw [ih, hcat.1]
      | none =>
        rw [hfo] at ih
        rw [ih, hcat.1]

/-- Raw records used in the C5 counterexample: two records whose uid is the
empty string. -/
def exRawE1 : Raw := { uid := some [], title := some ("first".toList) }

/-- Second empty-uid raw record for the C5 counterexample. -/
def exRawE2 : Raw := { uid := some [], title := some ("second".toList) }

/-- Fetched input containing two raw records with uid `""`. -/
def exFetchedEmptyUid : List (Str × List Raw) := [("ikra".toList, [exRawE1, exRawE2])]

/-- C5 counterexample: the uid `""` occurs in the fetched raw records, yet
after `full_scrape` it appears twice (not exactly once) in the product list —
empty uids bypass the dedupe set. -/
theorem c5_counterexample :
    (∃ x ∈ exFetchedEmptyUid, ∃ r ∈ x.2, r.uid.getD [] = []) ∧
    ¬ ((fullScrape exFetchedEmptyUid).filter
        (fun p => decide (p.uid = []))).length = 1 := by
  constructor
  · exact ⟨("ikra".toList, [exRawE1, exRawE2]), by decide, exRawE1, by decide, by decide⟩
  · decide

/-- C5 (amended): after `full_scrape`, every NON-EMPTY uid occurring in the
fetched raw records appears exactly once in the product list, carrying the
values normalised from the first raw record with that uid in
category-then-pair-then-record iteration order; later records with an
already-seen non-empty uid are dropped. -/
theorem c5_nonempty_uid_first_occurrence (fetched : List (Str × List Raw))
    (u : Str) (slug : Str) (r : Raw) (hu : u ≠ [])
    (hf : firstOcc u fetched = some (slug, r)) :
    (fullScrape fetched).filter (fun p => decide (p.uid = u)) =
      [normaliseProduct r slug] := by
  have h := dedupCats_unseen u hu fetched [] [] (by simp)
  rw [hf] at h
  simpa using h

/-- Fetched input with a duplicated non-empty uid for the C5 witness. -/
def exRawU1 : Raw := { uid := some ("u1".toList), price := some ("5".toList) }

/-- Later record with the same uid but different values. -/
def exRawU2 : Raw := { uid := some ("u1".toList), price := some ("9".toList) }

/-- Two categories fetching records that share the uid `u1`. -/
def exFetchedDup : List (Str × List Raw) :=
  [("ikra".toList, [exRawU1]), ("ryba".toList, [exRawU2])]

theorem c5_witness :
    (fullScrape exFetchedDup).filter (fun p => decide (p.uid = "u1".toList)) =
      [normaliseProduct exRawU1 ("ikra".toList)] :=
  c5_nonempty_uid_first_occurrence exFetchedDup ("u1".toList) ("ikra".toList)
    exRawU1 (by decide) (by decide)

theorem lowerTable_ws : ∀ e ∈ lowerTable, isWs e.2 = isWs e.1 := by decide

theorem lowerTable_word : ∀ e ∈ lowerTable, isWordChar e.2 = isWordChar e.1 := by
  decide

theorem lowerTable_hyphen : ∀ e ∈ lowerTable, e.2 ≠ '-' ∧ e.1 ≠ '-' := by decide

theorem pyLower_ws (c : Char) : isWs (pyLower c) = isWs c := by
  unfold pyLower
  cases hf : lowerTable.find? (fun e => decide (e.1 = c)) with
  | none => rfl
  | some e =>
    have hmem := List.mem_of_find?_eq_some hf
    have hp := List.find?_some hf
    simp only [decide_eq_true_eq] at hp
    simpa [hp] using lowerTable_ws e hmem

theorem pyLower_word (c : Char) : isWordChar (pyLower c) = isWordChar c := by
  unfold pyLower
  cases hf : lowerTable.find? (fun e => decide (e.1 = c)) with
  | none => rfl
  | some e =>
    have hmem := List.mem_of_find?_eq_some hf
    have hp := List.find?_some hf
    simp only [decide_eq_true_eq] at hp
    simpa [hp] using lowerTable_word e hmem

theorem pyLower_hyphen (c : Char) : (pyLower c = '-') ↔ (c = '-') := by
  unfold pyLower
  cases hf : lowerTable.find? (fun e => decide (e.1 = c)) with
  | none => rfl
  | some e =>
    have hmem := List.mem_of_find?_eq_some hf
    have hp := List.find?_some hf
    simp only [decide_eq_true_eq] at hp
    have hh := lowerTable_hyphen e hmem
    show (e.2 = '-') ↔ (c = '-')
    constructor
    · intro h2; exact absurd h2 hh.1
    · intro h1; exact absurd (hp.trans h1) hh.2

theorem yoFold_ws (c : Char) : isWs (yoFold c) = isWs c := by
  unfold yoFold
  split
  · subst_vars; decide
  · rfl

theorem yoFold_word (c : Char) : isWordChar (yoFold c) = isWordChar c := by
  unfold yoFold
  split
  · subst_vars; decide
  · rfl

theorem yoFold_hyphen (c : Char) : (yoFold c = '-') ↔ (c = '-') := by
  unfold yoFold
  split
  · subst_vars; decide
  · rfl

theorem ws_not_word (c : Char) : isWs c = true → isWordChar c = false := by
  intro h
  simp only [isWs, Bool.or_eq_true, decide_eq_true_eq] at h
  rcases h with ((h | h) | h) | h <;> subst h <;> decide

theorem ws_not_hyphen (c : Char) : isWs c = true → c ≠ '-' := by
  intro h
  simp only [isWs, Bool.or_eq_true, decide_eq_true_eq] at h
  rcases h with ((h | h) | h) | h <;> subst h <;> decide

theorem splitAux_tokens :
    ∀ (l acc : Str), (∀ c ∈ acc, isWs c = false) →
      ∀ t ∈ splitAux l acc, t ≠ [] ∧ ∀ c ∈ t, isWs c = false
  | [], acc, hacc => by
    unfold splitAux
    split
    · simp
    · intro t ht
      rw [List.mem_singleton] at ht
      subst ht
      refine ⟨by simpa using (by assumption : ¬ acc = []), ?_⟩
      intro c hc
      exact hacc c (List.mem_reverse.1 hc)
  | c :: rest, acc, hacc => by
    unfold splitAux
    by_cases hw : isWs c
    · rw [if_pos hw]
      split
      · exact splitAux_tokens rest [] (by simp)
      · intro t ht
        rcases List.mem_cons.1 ht with h | h
        · subst h
          refine ⟨by simpa using (by assumption : ¬ acc = []), ?_⟩
          intro d hd
          exact hacc d (List.mem_reverse.1 hd)
        · exact splitAux_tokens rest [] (by simp) t h
    · rw [if_neg hw]
      refine splitAux_tokens rest (c :: acc) ?_
      intro d hd
      rcases List.mem_cons.1 hd with h | h
      · subst h; simpa using hw
      · exact hacc d h

theorem pySplit_tokens (l : Str) :
    ∀ t ∈ pySplit l, t ≠ [] ∧ ∀ c ∈ t, isWs c = false :=
  splitAux_tokens l [] (by simp)

theorem splitAux_cons_ws (c : Char) (l acc : Str) (h : isWs c = true) :
    splitAux (c :: l) acc =
      if acc = [] then splitAux l [] else acc.reverse :: splitAux l [] := by
  unfold splitAux
  rw [if_pos h]
  by_cases hacc : acc = []
  · rw [if_pos hacc, if_pos hacc]
    cases l <;> rfl
  · rw [if_neg hacc, if_neg hacc]
    cases l <;> rfl

theorem splitAux_cons_nonws (c : Char) (l acc : Str) (h : isWs c = false) :
    splitAux (c :: l) acc = splitAux l (c :: acc) := by
  unfold splitAux
  rw [if_neg (by simp [h])]
  cases l <;> rfl

theorem splitAux_congr (g : Char → Char) :
    ∀ (l acc : Str),
      (∀ c ∈ l, isWs (g c) = isWs c ∧ (isWs c = false → g c = c)) →
      splitAux (l.map g) acc = splitAux l acc
  | [], acc, _ => rfl
  | c :: rest, acc, h => by
    have hc := h c (List.mem_cons_self c rest)
    have hrest : ∀ c ∈ rest, isWs (g c) = isWs c ∧ (isWs c = false → g c = c) :=
      fun d hd => h d (List.mem_cons_of_mem c hd)
    simp only [List.map_cons]
    by_cases hw : isWs c = true
    · rw [splitAux_cons_ws (g c) _ acc (hc.1.trans hw), splitAux_cons_ws c _ acc hw]
      rw [splitAux_congr g rest [] hrest]
    · have hw' : isWs c = false := by simpa using hw
      rw [splitAux_cons_nonws (g c) _ acc (hc.1.trans hw'),
        splitAux_cons_nonws c _ acc hw']
      rw [hc.2 hw']
      exact splitAux_congr g rest (c :: acc) hrest

theorem splitAux_append_nonws :
    ∀ (t l acc : Str), (∀ c ∈ t, isWs c = false) →
      splitAux (t ++ l) acc = splitAux l (t.reverse ++ acc)
  | [], l, acc, _ => by simp
  | c :: t, l, acc, h => by
    have hc : isWs c = false := h c (List.mem_cons_self c t)
    simp only [List.cons_append]
    rw [splitAux_cons_nonws c _ acc hc]
    rw [splitAux_append_nonws t l (c :: acc)
      (fun d hd => h d (List.mem_cons_of_mem c hd))]
    simp

theorem pySplit_joinSpace :
    ∀ ts : List Str, (∀ t ∈ ts, t ≠ [] ∧ ∀ c ∈ t, isWs c = false) →
      pySplit (joinSpace ts) = ts
  | [], _ => rfl
  | [t], h => by
    have ht := h t (List.mem_singleton_self t)
    unfold joinSpace pySplit
    have := splitAux_append_nonws t [] [] ht.2
    rw [List.append_nil] at this
    rw [this]
    unfold splitAux
    rw [if_neg (by simpa using ht.1)]
    simp
  | t :: t' :: ts, h => by
    have ht := h t (List.mem_cons_self t (t' :: ts))
    have hrest : ∀ x ∈ t' :: ts, x ≠ [] ∧ ∀ c ∈ x, isWs c = false :=
      fun x hx => h x (List.mem_cons_of_mem t hx)
    show pySplit (t ++ ' ' :: joinSpace (t' :: ts)) = t :: t' :: ts
    unfold pySplit
    rw [splitAux_append_nonws t (' ' :: joinSpace (t' :: ts)) [] ht.2]
    unfold splitAux
    rw [if_pos (by decide)]
    rw [if_neg (by simpa using ht.1)]
    simp only [List.append_nil, List.reverse_reverse]
    rw [show splitAux (joinSpace (t' :: ts)) [] = pySplit (joinSpace (t' :: ts)) from rfl]
    rw [pySplit_joinSpace (t' :: ts) hrest]

theorem splitAux_all_ws :
    ∀ l : Str, (∀ c ∈ l, isWs c = true) → splitAux l [] = []
  | [], _ => rfl
  | c :: rest, h => by
    unfold splitAux
    rw [if_pos (h c (List.mem_cons_self c rest)), if_pos rfl]
    exact splitAux_all_ws rest (fun d hd => h d (List.mem_cons_of_mem c hd))

theorem pySplit_eq_nil (l : Str) (h : ∀ c ∈ l, isWs c = true) : pySplit l = [] :=
  splitAux_all_ws l h

theorem pyStrip_eq_nil_iff (l : Str) :
    pyStrip l = [] ↔ ∀ c ∈ l, isWs c = true := by
  unfold pyStrip
  rw [List.reverse_eq_nil_iff, List.dropWhile_eq_nil_iff]
  constructor
  · intro h c hc
    rw [← List.takeWhile_append_dropWhile isWs l] at hc
    rcases List.mem_append.1 hc with h1 | h1
    · exact List.mem_takeWhile_imp h1
    · exact h c (List.mem_reverse.2 h1)
  · intro h c hc
    exact h c ((List.dropWhile_sublist isWs).mem (List.mem_reverse.1 hc))

theorem normalizeText_char (q : Str) :
    normalizeText q = q.map (fun c => yoFold (pyLower c)) := by
  unfold normalizeText
  rw [List.map_map]
  rfl

theorem normalizeText_ws_iff (q : Str) :
    (∀ c ∈ normalizeText q, isWs c = true) ↔ (∀ c ∈ q, isWs c = true) := by
  rw [normalizeText_char]
  constructor
  · intro h c hc
    have := h (yoFold (pyLower c)) (List.mem_map_of_mem _ hc)
    rwa [yoFold_ws, pyLower_ws] at this
  · intro h c hc
    rcases List.mem_map.1 hc with ⟨d, hd, rfl⟩
    rw [yoFold_ws, pyLower_ws]
    exact h d hd

theorem matchAmong_suffix (es : List Ending) (r r' : Str)
    (h : matchAmong es r = some r') : r' <:+ r := by
  unfold matchAmong at h
  split at h
  · exact absurd h (by simp)
  · split at h
    · split at h
      · rename_i e _ _ c rest heq
        split at h
        · cases h
          rw [← heq]
          exact List.drop_suffix _ _
        · exact absurd h (by simp)
      · exact absurd h (by simp)
    · cases h
      exact List.drop_suffix _ _

theorem getD_matchAmong_suffix (es : List Ending) (r : Str) :
    ((matchAmong es r).getD r) <:+ r := by
  cases h : matchAmong es r with
  | none => exact List.suffix_refl r
  | some r' => simpa using matchAmong_suffix es r r' h

theorem step1b_suffix (r1 : Str) : step1b r1 <:+ r1 := by
  unfold step1b
  split
  · rename_i r2 h2
    exact (getD_matchAmong_suffix participleEndings r2).trans
      (matchAmong_suffix _ _ _ h2)
  · split
    · rename_i r2 h3
      exact matchAmong_suffix _ _ _ h3
    · exact getD_matchAmong_suffix _ _

theorem step1_suffix (r : Str) : step1 r <:+ r := by
  unfold step1
  split
  · rename_i r1 h0
    exact matchAmong_suffix _ _ _ h0
  · exact (step1b_suffix _).trans (getD_matchAmong_suffix _ _)

theorem derivStep_suffix (r : Str) (k : Nat) : derivStep r k <:+ r := by
  unfold derivStep
  split
  · rename_i r1 h
    split
    · exact matchAmong_suffix _ _ _ h
    · exact List.suffix_refl r
  · exact List.suffix_refl r

theorem undoubleN_suffix (r : Str) : undoubleN r <:+ r := by
  unfold undoubleN
  split
  · exact ⟨['н'], rfl⟩
  · exact List.suffix_refl _

theorem tidyUp_suffix (r : Str) : tidyUp r <:+ r := by
  unfold tidyUp
  split
  · exact (undoubleN_suffix _).trans (List.drop_suffix _ _)
  · split
    · exact (undoubleN_suffix _).trans (List.drop_suffix _ _)
    · split
      · exact List.drop_suffix _ _
      · split
        · exact List.drop_suffix _ _
        · exact List.suffix_refl _

theorem stem_pipeline_suffix (r0 : Str) (k : Nat) :
    tidyUp (derivStep
      (if (step1 r0).take 1 = ['и'] then (step1 r0).drop 1 else step1 r0) k) <:+
      r0 := by
  refine (tidyUp_suffix _).trans ((derivStep_suffix _ _).trans ?_)
  split
  · exact (List.drop_suffix _ _).trans (step1_suffix r0)
  · exact step1_suffix r0

theorem take_append_reverse_of_suffix (wf : Str) (pV : Nat) (x : Str)
    (h : x <:+ (wf.drop pV).reverse) : wf.take pV ++ x.reverse <+: wf := by
  have h2 : x.reverse <+: wf.drop pV := by
    rw [← List.reverse_reverse x] at h
    exact List.reverse_suffix.1 h
  rcases h2 with ⟨t, ht⟩
  exact ⟨t, by rw [List.append_assoc, ht, List.take_append_drop]⟩

theorem snowballRu_shortens (w : Str) : snowballRu w <+: w.map yoFold := by
  simp only [snowballRu]
  exact take_append_reverse_of_suffix _ _ _ (stem_pipeline_suffix _ _)

theorem findIdx?_lt_length {p : Char → Bool} :
    ∀ {l : Str} {i : Nat}, l.findIdx? p = some i → i < l.length
  | [], i, h => by simp [List.findIdx?] at h
  | c :: rest, i, h => by
    rw [List.findIdx?_cons] at h
    by_cases hp : p c
    · rw [if_pos hp] at h
      cases h
      simp
    · rw [if_neg hp, List.findIdx?_succ] at h
      cases hm : rest.findIdx? p with
      | none => rw [hm] at h; exact absurd h (by simp)
      | some j =>
        have hj := findIdx?_lt_length hm
        rw [hm] at h
        simp only [Option.map_some'] at h
        cases h
        simp only [List.length_cons]
        omega

theorem markRegions_fst_some (w : Str) (i : Nat)
    (h : w.findIdx? ruVowel = some i) : (markRegions w).1 = i + 1 := by
  show pVOf w = i + 1
  unfold pVOf
  rw [h]

theorem markRegions_fst_none (w : Str) (h : w.findIdx? ruVowel = none) :
    (markRegions w).1 = w.length := by
  show pVOf w = w.length
  unfold pVOf
  rw [h]

theorem snowballRu_ne_nil (w : Str) (hw : w ≠ []) : snowballRu w ≠ [] := by
  simp only [snowballRu]
  cases hf : (w.map yoFold).findIdx? ruVowel with
  | some i =>
    rw [markRegions_fst_some _ _ hf]
    have hlen : i < (w.map yoFold).length := findIdx?_lt_length hf
    intro hcon
    rcases List.append_eq_nil.1 hcon with ⟨h1, _⟩
    rw [List.take_eq_nil_iff] at h1
    rcases h1 with h1 | h1
    · omega
    · rw [h1] at hlen
      simp at hlen
  | none =>
    rw [markRegions_fst_none _ hf]
    rw [List.drop_length]
    have hx := stem_pipeline_suffix (([] : Str))
      ((markRegions (w.map yoFold)).2 - (w.map yoFold).length)
    rw [List.suffix_nil] at hx
    simp only [List.reverse_nil] at *
    rw [hx, List.take_length]
    simpa using hw

theorem snowballRu_no_ws (w : Str) (hw : ∀ c ∈ w, isWs c = false) :
    ∀ c ∈ snowballRu w, isWs c = false := by
  intro c hc
  have hmem : c ∈ w.map yoFold := (snowballRu_shortens w).subset hc
  rcases List.mem_map.1 hmem with ⟨d, hd, rfl⟩
  rw [yoFold_ws]
  exact hw d hd

/-- Query input used in the C1 counterexample: a token ending in a comma. -/
def exQueryPunct : Str := "ab,".toList

/-- C1 counterexample: for the query `"ab,"` the stemmed query terms used by
`search` (no punctuation stripping) differ from `_stem_text(query).split()`
(which strips the comma first) — the query pipeline is NOT identical to index
construction. -/
theorem c1_counterexample :
    stemTermsOf exQueryPunct ≠ pySplit (stemText exQueryPunct) := by decide

/-- C1 (amended): `search` stems the tokens of the lowercased, `ё`-folded,
whitespace-split query, but — unlike index construction — never strips
punctuation; the stemmed query terms therefore equal
`_stem_text(query).split()` exactly for queries all of whose characters are
word characters, hyphens or whitespace. -/
theorem c1_query_pipeline (q : Str)
    (h : ∀ c ∈ q, (isWordChar c || c = '-' || isWs c) = true) :
    stemTermsOf q = pySplit (stemText q) := by
  have hnorm : ∀ c ∈ normalizeText q, (isWordChar c || c = '-' || isWs c) = true := by
    rw [normalizeText_char]
    intro c hc
    rcases List.mem_map.1 hc with ⟨d, hd, rfl⟩
    have hd2 := h d hd
    simp only [Bool.or_eq_true, decide_eq_true_eq] at hd2 ⊢
    rcases hd2 with (hw | hh) | hws
    · exact Or.inl (Or.inl (by rw [yoFold_word, pyLower_word]; exact hw))
    · exact Or.inl (Or.inr (by rw [yoFold_hyphen, pyLower_hyphen]; exact hh))
    · exact Or.inr (by rw [yoFold_ws, pyLower_ws]; exact hws)
  have ha : pySplit (rePunctSub (normalizeText q)) = pySplit (normalizeText q) := by
    unfold rePunctSub pySplit
    apply splitAux_congr
    intro c hc
    by_cases hcw : (isWordChar c || c = '-') = true
    · rw [if_pos hcw]
      exact ⟨rfl, fun _ => rfl⟩
    · rw [if_neg hcw]
      have hcws : isWs c = true := by
        have := hnorm c hc
        simp only [Bool.or_eq_true] at this hcw
        tauto
      constructor
      · rw [hcws]; decide
      · intro hfalse
        rw [hcws] at hfalse
        exact absurd hfalse (by simp)
  have hb : pySplit (stemText q) = (pySplit (normalizeText q)).map snowballRu := by
    simp only [stemText]
    rw [ha]
    apply pySplit_joinSpace
    intro t ht
    rcases List.mem_map.1 ht with ⟨t0, ht0, rfl⟩
    have htok := pySplit_tokens (normalizeText q) t0 ht0
    exact ⟨snowballRu_ne_nil t0 htok.1, snowballRu_no_ws t0 htok.2⟩
  rw [hb]
  rfl

theorem c1_witness :
    stemTermsOf ("Fish-01 ab".toList) = pySplit (stemText ("Fish-01 ab".toList)) :=
  c1_query_pipeline ("Fish-01 ab".toList) (by decide)

/-- C8: two queries that agree after lowercasing and `ё`-folding produce the
same search results on every catalog state and limit. -/
theorem c8_search_normalization_invariant (cat : Catalog) (q1 q2 : Str)
    (limit : Nat) (h : normalizeText q1 = normalizeText q2) :
    cat.search q1 limit = cat.search q2 limit := by
  unfold Catalog.search
  have hg : (pyStrip q1 = []) ↔ (pyStrip q2 = []) := by
    rw [pyStrip_eq_nil_iff, pyStrip_eq_nil_iff, ← normalizeText_ws_iff q1,
      ← normalizeText_ws_iff q2, h]
  by_cases h1 : pyStrip q1 = []
  · rw [if_pos h1, if_pos (hg.1 h1)]
  · rw [if_neg h1, if_neg (fun hh => h1 (hg.2 hh))]
    simp only [stemTermsOf, normTermsOf, h]

theorem c8_witness :
    demoCat.search ("FISH".toList) 5 = demoCat.search ("Fish".toList) 5 :=
  c8_search_normalization_invariant demoCat ("FISH".toList) ("Fish".toList) 5
    (by decide)

theorem bucketsDesc_nil : ∀ m : Nat, bucketsDesc m [] = []
  | 0 => rfl
  | m + 1 => by simp [bucketsDesc, bucketsDesc_nil m]

theorem mem_bucketsDesc : ∀ (m : Nat) (l : List (Nat × Product)) (x),
    x ∈ bucketsDesc m l → x ∈ l ∧ 1 ≤ x.1 ∧ x.1 ≤ m
  | 0, l, x, h => by simp [bucketsDesc] at h
  | m + 1, l, x, h => by
    rw [bucketsDesc] at h
    rcases List.mem_append.1 h with h1 | h1
    · have := List.mem_filter.1 h1
      refine ⟨this.1, ?_, ?_⟩ <;> simp only [decide_eq_true_eq] at this <;> omega
    · have := mem_bucketsDesc m l x h1
      exact ⟨this.1, this.2.1, by omega⟩

theorem bucketsDesc_append_gt : ∀ (m : Nat) (l : List (Nat × Product))
    (x : Nat × Product) (_ : m < x.1), bucketsDesc m (l ++ [x]) = bucketsDesc m l
  | 0, l, x, h => rfl
  | m + 1, l, x, h => by
    rw [bucketsDesc, bucketsDesc]
    rw [List.filter_append]
    rw [bucketsDesc_append_gt m l x (by omega)]
    have : List.filter (fun y => decide (y.1 = m + 1)) [x] = [] := by
      simp only [List.filter_cons, List.filter_nil]
      rw [if_neg (by simp; omega)]
    rw [this, List.append_nil]

theorem insDesc_append (x : Nat × Product) :
    ∀ (a b : List (Nat × Product)), (∀ y ∈ a, ¬ y.1 < x.1) →
      insDesc x (a ++ b) = a ++ insDesc x b
  | [], b, _ => rfl
  | y :: a, b, h => by
    simp only [List.cons_append, insDesc, List.append_eq]
    rw [if_neg (h y (List.mem_cons_self y a))]
    rw [insDesc_append x a b (fun z hz => h z (List.mem_cons_of_mem y hz))]

theorem insDesc_bucketsDesc (x : Nat × Product) :
    ∀ (m : Nat) (l : List (Nat × Product)), 1 ≤ x.1 → x.1 ≤ m →
      insDesc x (bucketsDesc m l) = bucketsDesc m (l ++ [x])
  | 0, l, h1, h2 => by omega
  | m + 1, l, h1, h2 => by
    rw [bucketsDesc, bucketsDesc, List.filter_append]
    have hpass : ∀ y ∈ List.filter (fun y => decide (y.1 = m + 1)) l, ¬ y.1 < x.1 := by
      intro y hy
      have := (List.mem_filter.1 hy).2
      simp only [decide_eq_true_eq] at this
      omega
    rw [insDesc_append x _ _ hpass]
    by_cases hx : x.1 = m + 1
    · have hxf : List.filter (fun y => decide (y.1 = m + 1)) [x] = [x] := by
        simp [List.filter_cons, hx]
      rw [hxf]
      rw [bucketsDesc_append_gt m l x (by omega)]
      have hins : insDesc x (bucketsDesc m l) = x :: bucketsDesc m l := by
        cases hb : bucketsDesc m l with
        | nil => rfl
        | cons y ys =>
          have hy := mem_bucketsDesc m l y (hb ▸ List.mem_cons_self y ys)
          simp only [insDesc]
          rw [if_pos (by omega)]
      rw [hins]
      simp
    · have hxf : List.filter (fun y => decide (y.1 = m + 1)) [x] = [] := by
        simp [List.filter_cons, hx]
      rw [hxf, List.append_nil]
      rw [insDesc_bucketsDesc x m l h1 (by omega)]

theorem pySortDesc_eq_buckets (m : Nat) (l : List (Nat × Product))
    (h : ∀ x ∈ l, 1 ≤ x.1 ∧ x.1 ≤ m) : pySortDesc l = bucketsDesc m l := by
  induction l using List.reverseRecOn with
  | nil => rw [bucketsDesc_nil]; rfl
  | append_singleton l x ih =>
    have hl : ∀ y ∈ l, 1 ≤ y.1 ∧ y.1 ≤ m := fun y hy =>
      h y (List.mem_append.2 (Or.inl hy))
    have hx := h x (List.mem_append.2 (Or.inr (List.mem_singleton_self x)))
    unfold pySortDesc
    rw [List.foldl_append, List.foldl_cons, List.foldl_nil]
    rw [show List.foldl (fun acc y => insDesc y acc) [] l = pySortDesc l from rfl]
    rw [ih hl]
    exact insDesc_bucketsDesc x m l hx.1 hx.2

theorem foldl_step_eq_sum {α : Type} (g : α → Nat) (step : Nat → α → Nat)
    (hstep : ∀ a x, step a x = a + g x) :
    ∀ (l : List α) (a : Nat), l.foldl step a = a + (l.map g).sum
  | [], a => by simp
  | x :: l, a => by
    rw [List.foldl_cons, hstep, foldl_step_eq_sum g step hstep l (a + g x)]
    simp [Nat.add_assoc]

theorem stemScoreOf_eq_sum (stems : List Str) (e : List Str × List Str) :
    stemScoreOf stems e =
      (stems.map (fun st =>
        if stemMatch st e.1 then 3 else if stemMatch st e.2 then 1 else 0)).sum := by
  unfold stemScoreOf
  rw [foldl_step_eq_sum (fun st =>
      if stemMatch st e.1 then 3 else if stemMatch st e.2 then 1 else 0) _ ?_ stems 0]
  · simp
  · intro a x
    by_cases h1 : stemMatch x e.1
    · simp [h1]
    · by_cases h2 : stemMatch x e.2 <;> simp [h1, h2]

theorem fallbackScoreOf_eq_spec (q : Str) (p : Product) :
    fallbackScoreOf (normTermsOf q) p = specScoreFallback q p := by
  unfold fallbackScoreOf specScoreFallback
  rw [foldl_step_eq_sum (fun t =>
      if strContains t (normalizeText p.title) then 3
      else if strContains t (normalizeText (otherFieldsText p)) then 1 else 0) _ ?_ _ 0]
  · simp
  · intro a x
    by_cases h1 : strContains x (normalizeText p.title)
    · simp [h1]
    · by_cases h2 : strContains x (normalizeText (otherFieldsText p)) <;> simp [h1, h2]

theorem productScore_some_eq_spec (q : Str) (e : List Str × List Str) (p : Product) :
    productScore (stemTermsOf q) (normTermsOf q) (some e) p = specScoreIdx q e p := by
  show (if stemScoreOf (stemTermsOf q) e = 0 then fallbackScoreOf (normTermsOf q) p
        else stemScoreOf (stemTermsOf q) e) =
      (if ((stemTermsOf q).map (fun st =>
            if stemMatch st e.1 then 3 else if stemMatch st e.2 then 1 else 0)).sum = 0
       then specScoreFallback q p
       else ((stemTermsOf q).map (fun st =>
            if stemMatch st e.1 then 3 else if stemMatch st e.2 then 1 else 0)).sum)
  rw [stemScoreOf_eq_sum, fallbackScoreOf_eq_spec]

theorem productScore_none_eq_spec (q : Str) (p : Product) :
    productScore (stemTermsOf q) (normTermsOf q) none p = specScoreFallback q p := by
  show (if (0 : Nat) = 0 then fallbackScoreOf (normTermsOf q) p else 0) =
      specScoreFallback q p
  rw [if_pos rfl, fallbackScoreOf_eq_spec]

theorem sum_map_le_three {α : Type} (f : α → Nat) :
    ∀ l : List α, (∀ x ∈ l, f x ≤ 3) → (l.map f).sum ≤ 3 * l.length
  | [], _ => by simp
  | x :: l, h => by
    rw [List.map_cons, List.sum_cons, List.length_cons]
    have h1 := h x (List.mem_cons_self x l)
    have h2 := sum_map_le_three f l (fun y hy => h y (List.mem_cons_of_mem x hy))
    omega

theorem specScoreFallback_le (q : Str) (p : Product) :
    specScoreFallback q p ≤ 3 * (normTermsOf q).length := by
  unfold specScoreFallback
  have := sum_map_le_three (fun t =>
      if strContains t (normalizeText p.title) then 3
      else if strContains t (normalizeText (otherFieldsText p)) then 1 else 0)
    (normTermsOf q) ?_
  · simpa using this
  · intro x _
    show (if strContains x (normalizeText p.title) then 3
          else if strContains x (normalizeText (otherFieldsText p)) then 1 else 0) ≤ 3
    split
    · omega
    · split <;> omega

theorem specScoreIdx_le (q : Str) (e : List Str × List Str) (p : Product) :
    specScoreIdx q e p ≤ 3 * (normTermsOf q).length := by
  show (if ((stemTermsOf q).map (fun st =>
          if stemMatch st e.1 then 3 else if stemMatch st e.2 then 1 else 0)).sum = 0
        then specScoreFallback q p
        else ((stemTermsOf q).map (fun st =>
          if stemMatch st e.1 then 3 else if stemMatch st e.2 then 1 else 0)).sum) ≤
      3 * (normTermsOf q).length
  split
  · exact specScoreFallback_le q p
  · have := sum_map_le_three (fun st =>
        if stemMatch st e.1 then 3 else if stemMatch st e.2 then 1 else 0)
      (stemTermsOf q) ?_
    · have hlen : (stemTermsOf q).length = (normTermsOf q).length := by
        unfold stemTermsOf
        exact List.length_map _ _
      omega
    · intro x _
      show (if stemMatch x e.1 then 3 else if stemMatch x e.2 then 1 else 0) ≤ 3
      split
      · omega
      · split <;> omega

theorem specScoredIdx_bound (cat : Catalog) (q : Str) :
    ∀ x ∈ specScoredIdx cat q, 1 ≤ x.1 ∧ x.1 ≤ 3 * (normTermsOf q).length := by
  intro x hx
  rcases List.mem_filterMap.1 hx with ⟨pe, _, hfx⟩
  by_cases hs : 0 < specScoreIdx q pe.2 pe.1
  · rw [if_pos hs] at hfx
    cases hfx
    exact ⟨by omega, specScoreIdx_le q pe.2 pe.1⟩
  · rw [if_neg hs] at hfx
    exact absurd hfx (by simp)

theorem specScoredFallback_bound (cat : Catalog) (q : Str) :
    ∀ x ∈ specScoredFallback cat q, 1 ≤ x.1 ∧ x.1 ≤ 3 * (normTermsOf q).length := by
  intro x hx
  rcases List.mem_filterMap.1 hx with ⟨p, _, hfx⟩
  by_cases hs : 0 < specScoreFallback q p
  · rw [if_pos hs] at hfx
    cases hfx
    exact ⟨by omega, specScoreFallback_le q p⟩
  · rw [if_neg hs] at hfx
    exact absurd hfx (by simp)

theorem stemTermsOf_blank (q : Str) (hq : pyStrip q = []) : stemTermsOf q = [] := by
  unfold stemTermsOf normTermsOf
  rw [pySplit_eq_nil _ ((normalizeText_ws_iff q).2 ((pyStrip_eq_nil_iff q).1 hq))]
  rfl

theorem normTermsOf_blank (q : Str) (hq : pyStrip q = []) : normTermsOf q = [] := by
  unfold normTermsOf
  exact pySplit_eq_nil _ ((normalizeText_ws_iff q).2 ((pyStrip_eq_nil_iff q).1 hq))

theorem specScoreIdx_blank (q : Str) (hq : pyStrip q = [])
    (e : List Str × List Str) (p : Product) : specScoreIdx q e p = 0 := by
  show (if ((stemTermsOf q).map (fun st =>
        if stemMatch st e.1 then 3 else if stemMatch st e.2 then 1 else 0)).sum = 0
      then specScoreFallback q p
      else ((stemTermsOf q).map (fun st =>
        if stemMatch st e.1 then 3 else if stemMatch st e.2 then 1 else 0)).sum) = 0
  rw [stemTermsOf_blank q hq]
  simp only [List.map_nil, List.sum_nil, if_pos rfl]
  unfold specScoreFallback
  rw [normTermsOf_blank q hq]
  simp

theorem specScoreFallback_blank (q : Str) (hq : pyStrip q = []) (p : Product) :
    specScoreFallback q p = 0 := by
  unfold specScoreFallback
  rw [normTermsOf_blank q hq]
  simp

/-- C3: on a catalog whose search index is length-aligned with the product
list, `search` returns exactly the products with positive score — each scored
per query stem with +3 for a title-index match else +1 for an other-fields
match, the substring fallback applying exactly when the stemmed score is
zero — sorted by descending score with equal scores in product-list order,
truncated to the first `limit`. -/
theorem c3_search_ranking (cat : Catalog) (q : Str) (n : Nat)
    (hlen : cat.searchIndex.length = cat.products.length) :
    cat.search q n =
      (rankedByScore (specScoredIdx cat q) (3 * (normTermsOf q).length)).take n := by
  simp only [Catalog.search]
  by_cases hq : pyStrip q = []
  · rw [if_pos hq]
    have hscored : specScoredIdx cat q = [] := by
      unfold specScoredIdx
      rw [List.filterMap_eq_nil_iff]
      intro pe _
      rw [if_neg (by rw [specScoreIdx_blank q hq]; omega)]
    rw [hscored]
    unfold rankedByScore
    rw [bucketsDesc_nil]
    simp
  · rw [if_neg hq, if_pos hlen]
    have hres : (cat.products.zip (cat.searchIndex.map some)).filterMap (fun pe =>
        if 0 < productScore (stemTermsOf q) (normTermsOf q) pe.2 pe.1 then
          some (productScore (stemTermsOf q) (normTermsOf q) pe.2 pe.1, pe.1)
        else none) = specScoredIdx cat q := by
      rw [List.zip_map_right, List.filterMap_map]
      apply List.filterMap_congr
      intro pe _
      show (if 0 < productScore (stemTermsOf q) (normTermsOf q) (some pe.2) pe.1 then
          some (productScore (stemTermsOf q) (normTermsOf q) (some pe.2) pe.1, pe.1)
        else none) =
        (if 0 < specScoreIdx q pe.2 pe.1 then some (specScoreIdx q pe.2 pe.1, pe.1)
         else none)
      rw [productScore_some_eq_spec]
    rw [hres]
    rw [pySortDesc_eq_buckets (3 * (normTermsOf q).length) _ (specScoredIdx_bound cat q)]
    unfold rankedByScore
    rw [List.map_take]

theorem c3_witness :
    demoCat.search ("fish".toList) 10 =
      (rankedByScore (specScoredIdx demoCat ("fish".toList))
        (3 * (normTermsOf ("fish".toList)).length)).take 10 :=
  c3_search_ranking demoCat ("fish".toList) 10 (by decide)

theorem search_fallback_only (cat : Catalog) (q : Str) (n : Nat)
    (hlen : cat.searchIndex.length ≠ cat.products.length) :
    cat.search q n =
      (rankedByScore (specScoredFallback cat q)
        (3 * (normTermsOf q).length)).take n := by
  simp only [Catalog.search]
  by_cases hq : pyStrip q = []
  · rw [if_pos hq]
    have hscored : specScoredFallback cat q = [] := by
      unfold specScoredFallback
      rw [List.filterMap_eq_nil_iff]
      intro p _
      rw [if_neg (by rw [specScoreFallback_blank q hq]; omega)]
    rw [hscored]
    unfold rankedByScore
    rw [bucketsDesc_nil]
    simp
  · rw [if_neg hq, if_neg hlen]
    have hres : (cat.products.map (fun p => (p, (none : Option (List Str × List Str))))).filterMap
        (fun pe =>
          if 0 < productScore (stemTermsOf q) (normTermsOf q) pe.2 pe.1 then
            some (productScore (stemTermsOf q) (normTermsOf q) pe.2 pe.1, pe.1)
          else none) = specScoredFallback cat q := by
      rw [List.filterMap_map]
      apply List.filterMap_congr
      intro p _
      show (if 0 < productScore (stemTermsOf q) (normTermsOf q) none p then
          some (productScore (stemTermsOf q) (normTermsOf q) none p, p)
        else none) =
        (if 0 < specScoreFallback q p then some (specScoreFallback q p, p) else none)
      rw [productScore_none_eq_spec]
    rw [hres]
    rw [pySortDesc_eq_buckets (3 * (normTermsOf q).length) _
      (specScoredFallback_bound cat q)]
    unfold rankedByScore
    rw [List.map_take]

/-- C4: when the search index length differs from the product list length,
`search` reads no index entry: the result is exactly the substring-fallback
ranking (still sorted, truncated, never failing), and it is the same for any
other misaligned index contents. -/
theorem c4_misaligned_index_degrades (cat : Catalog) (q : Str) (n : Nat)
    (hlen : cat.searchIndex.length ≠ cat.products.length) :
    cat.search q n =
      (rankedByScore (specScoredFallback cat q)
        (3 * (normTermsOf q).length)).take n ∧
    (∀ idx : List (List Str × List Str), idx.length ≠ cat.products.length →
      Catalog.search
        { products := cat.products, searchIndex := idx,
          lastFullScrape := cat.lastFullScrape,
          lastPriceRefresh := cat.lastPriceRefresh } q n = cat.search q n) := by
  refine ⟨search_fallback_only cat q n hlen, ?_⟩
  intro idx hidx
  rw [search_fallback_only _ q n hidx, search_fallback_only cat q n hlen]
  rfl

/-- Misaligned catalog used in the C4 witness: one product, empty index. -/
def misCat : Catalog :=
  { products := [demoProduct]
    searchIndex := []
    lastFullScrape := 0
    lastPriceRefresh := 0 }

theorem c4_witness :
    misCat.search ("fish".toList) 10 =
      (rankedByScore (specScoredFallback misCat ("fish".toList))
        (3 * (normTermsOf ("fish".toList)).length)).take 10 ∧
    (∀ idx : List (List Str × List Str), idx.length ≠ misCat.products.length →
      Catalog.search
        { products := misCat.products, searchIndex := idx,
          lastFullScrape := misCat.lastFullScrape,
          lastPriceRefresh := misCat.lastPriceRefresh } ("fish".toList) 10 =
        misCat.search ("fish".toList) 10) :=
  c4_misaligned_index_degrades misCat ("fish".toList) 10 (by decide)

theorem frameEq_refl (p : Product) : frameEq p p := by
  unfold frameEq
  repeat' constructor

theorem frameEq_trans {p q r : Product} (h1 : frameEq p q) (h2 : frameEq q r) :
    frameEq p r := by
  unfold frameEq at *
  obtain ⟨a1, a2, a3, a4, a5, a6, a7, a8, a9, a10, a11, a12⟩ := h1
  obtain ⟨b1, b2, b3, b4, b5, b6, b7, b8, b9, b10, b11, b12⟩ := h2
  exact ⟨a1.trans b1, a2.trans b2, a3.trans b3, a4.trans b4, a5.trans b5,
    a6.trans b6, a7.trans b7, a8.trans b8, a9.trans b9, a10.trans b10,
    a11.trans b11, a12.trans b12⟩

theorem frameEq_applyPrices (rp : Raw) (q : Product) :
    frameEq q (applyPrices rp q) := by
  unfold frameEq applyPrices
  repeat' constructor

theorem applyPrices_uid (rp : Raw) (q : Product) :
    (applyPrices rp q).uid = q.uid := rfl

theorem updateAt_length (i : Nat) (f : Product → Product) :
    ∀ l : List Product, (updateAt i f l).length = l.length
  | [] => by simp [updateAt]
  | p :: ps => by
    unfold updateAt
    cases i with
    | zero => simp
    | succ i => simp [updateAt_length i f ps]

theorem updateAt_getElem? (f : Product → Product) :
    ∀ (l : List Product) (i j : Nat),
      (updateAt i f l)[j]? = if j = i then (l[j]?).map f else l[j]?
  | [], i, j => by simp [updateAt]
  | p :: ps, i, j => by
    unfold updateAt
    cases i with
    | zero =>
      cases j with
      | zero => simp
      | succ j => simp
    | succ i =>
      cases j with
      | zero => simp
      | succ j =>
        simp only [List.getElem?_cons_succ]
        rw [updateAt_getElem? f ps i j]
        by_cases h : j = i
        · rw [if_pos h, if_pos (by omega)]
        · rw [if_neg h, if_neg (by omega)]

theorem lookupIdx_cons (k : Str) (v : Nat) (m : List (Str × Nat)) (u : Str) :
    lookupIdx ((k, v) :: m) u = if k = u then some v else lookupIdx m u := by
  unfold lookupIdx
  rw [List.find?_cons]
  by_cases h : k = u
  · simp [h]
  · simp [h]

/-- Invariant of the `refresh_prices` loop state relative to the initial
product list `old` and the available tagged records `S`: the old products are
still in place up to price fields, everything beyond them is a normalised
append of a record whose uid was not initially known, and the `by_uid` keys
grow monotonically and only with uids of appended products. -/
def RefInv (old : List Product) (S : List (Str × Raw))
    (st : List Product × List (Str × Nat)) : Prop :=
  old.length ≤ st.1.length ∧
  (∀ (i : Nat) (p : Product), old[i]? = some p →
    ∃ q, st.1[i]? = some q ∧ frameEq p q) ∧
  (∀ (j : Nat) (q : Product), old.length ≤ j → st.1[j]? = some q →
    ∃ sr, sr ∈ S ∧ frameEq (normaliseProduct sr.2 sr.1) q ∧
      lookupIdx (buildByUid old) (sr.2.uid.getD []) = none) ∧
  (∀ u : Str, lookupIdx (buildByUid old) u ≠ none → lookupIdx st.2 u ≠ none) ∧
  (∀ u : Str, lookupIdx st.2 u ≠ none → lookupIdx (buildByUid old) u ≠ none ∨
    ∃ (j : Nat) (q : Product), old.length ≤ j ∧ st.1[j]? = some q ∧ q.uid = u)

theorem refreshRecord_inv (old : List Product) (S : List (Str × Raw))
    (slug : Str) (rp : Raw) (st : List Product × List (Str × Nat))
    (hmem : (slug, rp) ∈ S) (h : RefInv old S st) :
    RefInv old S (refreshRecord slug st rp) := by
  obtain ⟨h1, h2, h3, h4, h5⟩ := h
  simp only [refreshRecord]
  cases hl : lookupIdx st.2 (rp.uid.getD []) with
  | some i =>
    show RefInv old S (updateAt i (applyPrices rp) st.1, st.2)
    refine ⟨?_, ?_, ?_, h4, ?_⟩
    · rw [updateAt_length]
      exact h1
    · intro i' p hp
      obtain ⟨q, hq, hfq⟩ := h2 i' p hp
      rw [updateAt_getElem?]
      by_cases hi : i' = i
      · rw [if_pos hi, hq]
        exact ⟨applyPrices rp q, rfl,
          frameEq_trans hfq (frameEq_applyPrices rp q)⟩
      · rw [if_neg hi]
        exact ⟨q, hq, hfq⟩
    · intro j q' hj hq'
      rw [updateAt_getElem?] at hq'
      by_cases hji : j = i
      · rw [if_pos hji] at hq'
        rcases Option.map_eq_some'.1 hq' with ⟨q, hq, rfl⟩
        obtain ⟨sr, hsr, hfr, hunk⟩ := h3 j q hj hq
        exact ⟨sr, hsr, frameEq_trans hfr (frameEq_applyPrices rp q), hunk⟩
      · rw [if_neg hji] at hq'
        exact h3 j q' hj hq'
    · intro u hu
      rcases h5 u hu with hk | ⟨j, q, hj, hq, huid⟩
      · exact Or.inl hk
      · refine Or.inr ?_
        by_cases hji : j = i
        · exact ⟨j, applyPrices rp q,  hj, by
            rw [updateAt_getElem?, if_pos hji, hq]; rfl, by
            rw [applyPrices_uid]; exact huid⟩
        · exact ⟨j, q, hj, by rw [updateAt_getElem?, if_neg hji]; exact hq, huid⟩
  | none =>
    show RefInv old S
      (st.1 ++ [normaliseProduct rp slug], (rp.uid.getD [], st.1.length) :: st.2)
    have hinit : lookupIdx (buildByUid old) (rp.uid.getD []) = none := by
      by_contra hcon
      exact (hl ▸ h4 _ hcon) rfl
    refine ⟨?_, ?_, ?_, ?_, ?_⟩
    · rw [List.length_append]
      simp only [List.length_singleton]
      omega
    · intro i p hp
      obtain ⟨q, hq, hfq⟩ := h2 i p hp
      have hlt : i < st.1.length := (List.getElem?_eq_some.1 hq).1
      refine ⟨q, ?_, hfq⟩
      rw [List.getElem?_append, if_pos hlt]
      exact hq
    · intro j q' hj hq'
      rw [List.getElem?_append] at hq'
      by_cases hlt : j < st.1.length
      · rw [if_pos hlt] at hq'
        exact h3 j q' hj hq'
      · rw [if_neg hlt] at hq'
        have hj0 : j - st.1.length = 0 ∧ q' = normaliseProduct rp slug := by
          cases hd : j - st.1.length with
          | zero =>
            rw [hd] at hq'
            simp only [List.getElem?_cons_zero] at hq'
            exact ⟨rfl, (Option.some.inj hq').symm⟩
          | succ d =>
            rw [hd] at hq'
            simp at hq'
        exact ⟨(slug, rp), hmem, hj0.2 ▸ frameEq_refl _, hinit⟩
    · intro u hu
      rw [lookupIdx_cons]
      by_cases hk : rp.uid.getD [] = u
      · rw [if_pos hk]
        simp
      · rw [if_neg hk]
        exact h4 u hu
    · intro u hu
      rw [lookupIdx_cons] at hu
      by_cases hk : rp.uid.getD [] = u
      · refine Or.inr ⟨st.1.length, normaliseProduct rp slug, h1, ?_, ?_⟩
        · exact List.getElem?_concat_length st.1 _
        · rw [normaliseProduct_uid]
          exact hk
      · rw [if_neg hk] at hu
        rcases h5 u hu with hleft | ⟨j, q, hj, hq, huid⟩
        · exact Or.inl hleft
        · have hlt : j < st.1.length := (List.getElem?_eq_some.1 hq).1
          refine Or.inr ⟨j, q, hj, ?_, huid⟩
          rw [List.getElem?_append, if_pos hlt]
          exact hq

theorem refreshCat_inv (old : List Product) (S : List (Str × Raw)) (slug : Str) :
    ∀ (rs : List Raw) (st : List Product × List (Str × Nat)),
      (∀ rp ∈ rs, (slug, rp) ∈ S) → RefInv old S st →
      RefInv old S (refreshCat slug st rs)
  | [], st, _, h => h
  | rp :: rs, st, hmem, h => by
    unfold refreshCat
    exact refreshCat_inv old S slug rs _
      (fun x hx => hmem x (List.mem_cons_of_mem rp hx))
      (refreshRecord_inv old S slug rp st (hmem rp (List.mem_cons_self rp rs)) h)

theorem mem_allRecords {fetched : List (Str × List Raw)} {slug : Str} {rp : Raw}
    (hx : ∃ x ∈ fetched, x.1 = slug ∧ rp ∈ x.2) :
    (slug, rp) ∈ allRecords fetched := by
  rcases hx with ⟨x, hx1, hx2, hx3⟩
  unfold allRecords
  rw [List.mem_flatMap]
  exact ⟨x, hx1, by rw [List.mem_map]; exact ⟨rp, hx3, by rw [hx2]⟩⟩

theorem refreshCats_inv (old : List Product) (S : List (Str × Raw)) :
    ∀ (fetched : List (Str × List Raw)) (st : List Product × List (Str × Nat)),
      (∀ x ∈ fetched, ∀ rp ∈ x.2, (x.1, rp) ∈ S) → RefInv old S st →
      RefInv old S (refreshCats st fetched)
  | [], st, _, h => h
  | x :: rest, st, hmem, h => by
    unfold refreshCats
    exact refreshCats_inv old S rest _
      (fun y hy => hmem y (List.mem_cons_of_mem x hy))
      (refreshCat_inv old S x.1 x.2 st
        (fun rp hrp => hmem x (List.mem_cons_self x rest) rp hrp) h)

theorem refreshRecord_keyMono (slug : Str) (rp : Raw)
    (st : List Product × List (Str × Nat)) (u : Str)
    (h : lookupIdx st.2 u ≠ none) :
    lookupIdx (refreshRecord slug st rp).2 u ≠ none := by
  simp only [refreshRecord]
  cases hl : lookupIdx st.2 (rp.uid.getD []) with
  | some i => exact h
  | none =>
    show lookupIdx ((rp.uid.getD [], st.1.length) :: st.2) u ≠ none
    rw [lookupIdx_cons]
    split
    · simp
    · exact h

theorem refreshRecord_key (slug : Str) (rp : Raw)
    (st : List Product × List (Str × Nat)) :
    lookupIdx (refreshRecord slug st rp).2 (rp.uid.getD []) ≠ none := by
  simp only [refreshRecord]
  cases hl : lookupIdx st.2 (rp.uid.getD []) with
  | some i =>
    show lookupIdx st.2 (rp.uid.getD []) ≠ none
    rw [hl]
    simp
  | none =>
    show lookupIdx ((rp.uid.getD [], st.1.length) :: st.2) (rp.uid.getD []) ≠ none
    rw [lookupIdx_cons, if_pos rfl]
    simp

theorem refreshCat_keyMono (slug : Str) :
    ∀ (rs : List Raw) (st : List Product × List (Str × Nat)) (u : Str),
      lookupIdx st.2 u ≠ none → lookupIdx (refreshCat slug st rs).2 u ≠ none
  | [], st, u, h => h
  | rp :: rs, st, u, h => by
    unfold refreshCat
    exact refreshCat_keyMono slug rs _ u (refreshRecord_keyMono slug rp st u h)

theorem refreshCats_keyMono :
    ∀ (fetched : List (Str × List Raw)) (st : List Product × List (Str × Nat))
      (u : Str),
      lookupIdx st.2 u ≠ none → lookupIdx (refreshCats st fetched).2 u ≠ none
  | [], st, u, h => h
  | x :: rest, st, u, h => by
    unfold refreshCats
    exact refreshCats_keyMono rest _ u (refreshCat_keyMono x.1 x.2 st u h)

theorem refreshCat_processed (slug : Str) :
    ∀ (rs : List Raw) (st : List Product × List (Str × Nat)), ∀ rp ∈ rs,
      lookupIdx (refreshCat slug st rs).2 (rp.uid.getD []) ≠ none
  | [], st, rp, h => by simp at h
  | rp0 :: rs, st, rp, h => by
    unfold refreshCat
    rcases List.mem_cons.1 h with h1 | h1
    · subst h1
      exact refreshCat_keyMono slug rs _ _ (refreshRecord_key slug rp st)
    · exact refreshCat_processed slug rs _ rp h1

theorem refreshCats_processed :
    ∀ (fetched : List (Str × List Raw)) (st : List Product × List (Str × Nat)),
      ∀ sr ∈ allRecords fetched,
        lookupIdx (refreshCats st fetched).2 (sr.2.uid.getD []) ≠ none
  | [], st, sr, h => by simp [allRecords] at h
  | x :: rest, st, sr, h => by
    unfold refreshCats
    unfold allRecords at h
    rw [List.flatMap_cons, List.mem_append] at h
    rcases h with h1 | h1
    · rcases List.mem_map.1 h1 with ⟨rp, hrp, rfl⟩
      exact refreshCats_keyMono rest _ _
        (refreshCat_processed x.1 x.2 st rp hrp)
    · exact refreshCats_processed rest _ sr h1

/-- C7: on a non-empty catalog, `refresh_prices` changes at most `price`,
`priceold` and `quantity` of each pre-existing product (every other field,
`uid` included, is unchanged), advances only `last_price_refresh` leaving
`last_full_scrape` unchanged, never removes or reorders the existing
products, and every product beyond the original list is a normalised append
of a fetched record whose uid was not already known (possibly later
price-patched); conversely every fetched record with an unknown uid ends up
appended under its uid. -/
theorem c7_refresh_prices_frame (cat : Catalog) (fetched : List (Str × List Raw))
    (now : Nat) (h : cat.products ≠ []) :
    (cat.refreshPricesOp fetched now).lastFullScrape = cat.lastFullScrape ∧
    (cat.refreshPricesOp fetched now).lastPriceRefresh = now ∧
    cat.products.length ≤ (cat.refreshPricesOp fetched now).products.length ∧
    (∀ (i : Nat) (p : Product), cat.products[i]? = some p →
      ∃ q, (cat.refreshPricesOp fetched now).products[i]? = some q ∧ frameEq p q) ∧
    (∀ (j : Nat) (q : Product), cat.products.length ≤ j →
      (cat.refreshPricesOp fetched now).products[j]? = some q →
      ∃ sr, sr ∈ allRecords fetched ∧ frameEq (normaliseProduct sr.2 sr.1) q ∧
        lookupIdx (buildByUid cat.products) (sr.2.uid.getD []) = none) ∧
    (∀ sr ∈ allRecords fetched,
      lookupIdx (buildByUid cat.products) (sr.2.uid.getD []) = none →
      ∃ (j : Nat) (q : Product), cat.products.length ≤ j ∧
        (cat.refreshPricesOp fetched now).products[j]? = some q ∧
        q.uid = sr.2.uid.getD []) := by
  have hop : cat.refreshPricesOp fetched now =
      { products := (refreshCats (cat.products, buildByUid cat.products) fetched).1
        searchIndex := buildSearchIndex
          ((refreshCats (cat.products, buildByUid cat.products) fetched).1)
        lastFullScrape := cat.lastFullScrape
        lastPriceRefresh := now } := by
    simp only [Catalog.refreshPricesOp, if_neg h, refreshCore]
  rw [hop]
  have hinv : RefInv cat.products (allRecords fetched)
      (refreshCats (cat.products, buildByUid cat.products) fetched) := by
    apply refreshCats_inv
    · intro x hx rp hrp
      exact mem_allRecords ⟨x, hx, rfl, hrp⟩
    · refine ⟨Nat.le_refl _, ?_, ?_, fun u hu => hu, fun u hu => Or.inl hu⟩
      · intro i p hp
        exact ⟨p, hp, frameEq_refl p⟩
      · intro j q hj hq
        have := (List.getElem?_eq_some.1 hq).1
        simp only [] at this
        omega
  obtain ⟨h1, h2, h3, _, h5⟩ := hinv
  have hproc := refreshCats_processed fetched (cat.products, buildByUid cat.products)
  refine ⟨rfl, rfl, h1, h2, h3, ?_⟩
  intro sr hsr hunk
  rcases h5 (sr.2.uid.getD []) (hproc sr hsr) with hleft | hright
  · exact absurd hunk hleft
  · exact hright

/-- Existing product for the C7 witness catalog. -/
def exProd7 : Product :=
  { uid := "u1".toList, title := "Old".toList, price := "5".toList }

/-- One-product catalog for the C7 witness. -/
def exCat7 : Catalog :=
  { products := [exProd7]
    searchIndex := buildSearchIndex [exProd7]
    lastFullScrape := 11
    lastPriceRefresh := 22 }

/-- Fetched records for the C7 witness: a price update for the known uid and
one new record. -/
def exFetched7 : List (Str × List Raw) :=
  [("ikra".toList,
    [{ uid := some ("u1".toList), price := some ("9".toList) },
     { uid := some ("u2".toList), price := some ("7".toList) }])]

theorem c7_witness :
    (exCat7.refreshPricesOp exFetched7 99).lastFullScrape = exCat7.lastFullScrape ∧
    (exCat7.refreshPricesOp exFetched7 99).lastPriceRefresh = 99 ∧
    exCat7.products.length ≤ (exCat7.refreshPricesOp exFetched7 99).products.length ∧
    (∀ (i : Nat) (p : Product), exCat7.products[i]? = some p →
      ∃ q, (exCat7.refreshPricesOp exFetched7 99).products[i]? = some q ∧
        frameEq p q) ∧
    (∀ (j : Nat) (q : Product), exCat7.products.length ≤ j →
      (exCat7.refreshPricesOp exFetched7 99).products[j]? = some q →
      ∃ sr, sr ∈ allRecords exFetched7 ∧ frameEq (normaliseProduct sr.2 sr.1) q ∧
        lookupIdx (buildByUid exCat7.products) (sr.2.uid.getD []) = none) ∧
    (∀ sr ∈ allRecords exFetched7,
      lookupIdx (buildByUid exCat7.products) (sr.2.uid.getD []) = none →
      ∃ (j : Nat) (q : Product), exCat7.products.length ≤ j ∧
        (exCat7.refreshPricesOp exFetched7 99).products[j]? = some q ∧
        q.uid = sr.2.uid.getD []) :=
  c7_refresh_prices_frame exCat7 exFetched7 99 (by decide)
